import Mathlib

/-!
Shallow embedding of the pragmader/crdt repository: the Last-Writer-Wins
element set (src/lww/element_set.go) and the LWW directed graph built on it
(src/unnamed/part_003, the current revision of graph.go whose tests are
src/unnamed/part_001 and src/unnamed/part_002).

Modelling conventions:
* Go timestamps (time.Time) become Nat; t.After(u) becomes t > u, and the
  zero time.Time value becomes 0.  The clock is passed explicitly as a
  `now` argument to the mutating operations.
* Go maps become association lists (List (String × _)) with a no-duplicate-
  keys well-formedness predicate; map assignment is mapSet, map lookup is
  mapFind.  Go map iteration order is unspecified, the association list
  order stands in for one such order.
* Go slices become GoSlice (Option (List _)) so that the nil slice and the
  empty slice stay distinguishable; append on a nil slice yields a
  singleton, ranging over a nil slice is ranging over [].
* The dynamic Element interface with its two implementations (IDElement,
  Vertex) becomes a closed inductive type.
* The graph revision src/unnamed/part_003 refers to the set operations as
  Lookup and Merge; the set implementation under src/lww/element_set.go
  names them Contains and Replicate.  SetS.Lookup and SetS.Merge below are
  definitional aliases of SetS.Contains and SetS.Replicate.
* The two unbounded Go loops (the BFS queue loop of FindConnected and the
  recursive DFS of findPath) are embedded with an explicit fuel parameter;
  running out of fuel yields `none`.  Termination of the Go code is the
  theorem that with the fuel chosen by the wrappers the result is `some`.
-/

namespace Crdt

/-- Association list lookup, the model of Go map indexing. -/
def mapFind (m : List (String × α)) (k : String) : Option α :=
  match m with
  | [] => none
  | p :: rest => if p.1 = k then some p.2 else mapFind rest k

/-- Association list assignment, the model of Go map assignment: replaces
the entry in place when the key is present, appends otherwise. -/
def mapSet (m : List (String × α)) (k : String) (v : α) : List (String × α) :=
  match m with
  | [] => [(k, v)]
  | p :: rest => if p.1 = k then (k, v) :: rest else p :: mapSet rest k v

/-- Keys of an association list. -/
def mapKeys (m : List (String × α)) : List String :=
  m.map Prod.fst

/-- Well-formedness of the association-list model of a Go map: no key occurs
twice. -/
def NodupKeys (m : List (String × α)) : Prop :=
  (mapKeys m).Nodup

instance (m : List (String × α)) : Decidable (NodupKeys m) :=
  inferInstanceAs (Decidable (mapKeys m).Nodup)

/-- Go slice: `none` is the nil slice, `some l` a non-nil slice holding l. -/
def GoSlice (α : Type) : Type := Option (List α)

instance [DecidableEq α] : DecidableEq (GoSlice α) :=
  inferInstanceAs (DecidableEq (Option (List α)))

/-- Go append on a slice: appending to nil allocates a fresh slice. -/
def goAppend (s : GoSlice α) (x : α) : GoSlice α :=
  match s with
  | none => some [x]
  | some l => some (l ++ [x])

/-- Ranging over a Go slice: a nil slice ranges over nothing. -/
def goRange (s : GoSlice α) : List α :=
  match s with
  | none => []
  | some l => l

/-- Vertex (src/unnamed/part_003): a key and an arbitrary string value. -/
structure Vertex where
  Key : String
  Value : String
deriving DecidableEq, Repr

/-- Closed union of the Element implementations of the repository:
IDElement (a bare string, src/lww/element_set.go) and Vertex
(src/unnamed/part_003). -/
inductive Element where
  | idElem (id : String)
  | vertexElem (v : Vertex)
deriving DecidableEq, Repr

/-- GetKey of an element (IDElement returns itself, Vertex its Key). -/
def Element.GetKey : Element → String
  | .idElem id => id
  | .vertexElem v => v.Key

/-- addRecord (src/lww/element_set.go): an added element and the timestamp
when it was added. -/
structure AddRecord where
  Element : Element
  Timestamp : Nat
deriving DecidableEq, Repr

/-- Set (src/lww/element_set.go): all known additions and removals. -/
structure SetS where
  additions : List (String × AddRecord)
  removals : List (String × Nat)
deriving DecidableEq, Repr

/-- Error of Set.Contains (ErrElementNotFound). -/
inductive SetErr where
  | ElementNotFound
deriving DecidableEq, Repr

/-- NewSet (src/lww/element_set.go): empty registers. -/
def NewSet : SetS :=
  ⟨[], []⟩

/-- Set.Add (src/lww/element_set.go): record (e, now) under e.GetKey(),
replacing any existing record for that key. -/
def SetS.Add (s : SetS) (e : Element) (now : Nat) : SetS :=
  { s with additions := mapSet s.additions e.GetKey ⟨e, now⟩ }

/-- Set.Remove (src/lww/element_set.go): record now as the removal
timestamp for the key, replacing any existing one; succeeds even if the
element was never added. -/
def SetS.Remove (s : SetS) (key : String) (now : Nat) : SetS :=
  { s with removals := mapSet s.removals key now }

/-- Set.removed (src/lww/element_set.go): the two-valued Go map read
`removedAt, removed := s.removals[key]` gives the zero time (0) and false
when the key is absent; the function returns removed || removedAt.After(t). -/
def SetS.removed (s : SetS) (record : AddRecord) : Bool :=
  let r := mapFind s.removals record.Element.GetKey
  let removedAt : Nat := r.getD 0
  let removedF : Bool := r.isSome
  removedF || decide (removedAt > record.Timestamp)

/-- Set.Contains (src/lww/element_set.go): the record's element if the key
is in additions and not flagged by Set.removed, ErrElementNotFound
otherwise. -/
def SetS.Contains (s : SetS) (key : String) : Except SetErr Element :=
  match mapFind s.additions key with
  | none => .error .ElementNotFound
  | some addRecord =>
    if s.removed addRecord then .error .ElementNotFound
    else .ok addRecord.Element

/-- Set.List (src/lww/element_set.go): starts from an explicitly allocated
empty (non-nil) slice and appends every addition record not flagged by
Set.removed, in map iteration order. -/
def SetS.List (s : SetS) : GoSlice Element :=
  s.additions.foldl
    (fun list p => if s.removed p.2 then list else goAppend list p.2.Element)
    (some [])

/-- One iteration of the add-set union loop of Set.Replicate
(src/lww/element_set.go): take the remote record unless a local record
exists with a timestamp that is not strictly smaller. -/
def addMergeStep (acc : List (String × AddRecord)) (p : String × AddRecord) :
    List (String × AddRecord) :=
  match mapFind acc p.1 with
  | none => mapSet acc p.1 p.2
  | some localRecord =>
    if p.2.Timestamp > localRecord.Timestamp then mapSet acc p.1 p.2 else acc

/-- One iteration of the remove-set union loop of Set.Replicate
(src/lww/element_set.go). -/
def remMergeStep (acc : List (String × Nat)) (p : String × Nat) :
    List (String × Nat) :=
  match mapFind acc p.1 with
  | none => mapSet acc p.1 p.2
  | some localRemovedAt =>
    if p.2 > localRemovedAt then mapSet acc p.1 p.2 else acc

/-- Set.Replicate (src/lww/element_set.go): merge the remote state into the
local one, keeping per key the record with the strictly later timestamp
(the local one on ties), in both maps. -/
def SetS.Replicate (s : SetS) (remote : SetS) : SetS :=
  ⟨remote.additions.foldl addMergeStep s.additions,
   remote.removals.foldl remMergeStep s.removals⟩

/-- Set.Lookup: the name the current graph revision (src/unnamed/part_003)
and the set tests (src/unnamed/part_002) use for Set.Contains. -/
def SetS.Lookup (s : SetS) (key : String) : Except SetErr Element :=
  s.Contains key

/-- Set.Merge: the name the current graph revision (src/unnamed/part_003)
and its tests use for Set.Replicate. -/
def SetS.Merge (s : SetS) (remote : SetS) : SetS :=
  s.Replicate remote

/-- Specification-side description of the add-register merge: the remote
record wins exactly when it is strictly later, an absent side loses. -/
def lwwA : Option AddRecord → Option AddRecord → Option AddRecord
  | none, y => y
  | some a, none => some a
  | some a, some b => if b.Timestamp > a.Timestamp then some b else some a

/-- Specification-side description of the removal-register merge. -/
def lwwR : Option Nat → Option Nat → Option Nat
  | none, y => y
  | some a, none => some a
  | some a, some b => if b > a then some b else some a

/-- Errors of the graph operations (src/unnamed/part_003). -/
inductive GraphErr where
  | VertexAlreadyExists
  | InvalidVertexType
  | VertexNotFound
  | PathNotFound
deriving DecidableEq, Repr

/-- VertexWithEdges (src/unnamed/part_003): a vertex and its sorted
adjacent keys, the flat export format of Graph.List. -/
structure VertexWithEdges where
  Vertex : Vertex
  AdjacentKeys : List String
deriving DecidableEq, Repr

/-- Graph (src/unnamed/part_003): a set of vertices and, per vertex key, a
set of keys of adjacent vertices. -/
structure GraphS where
  vertices : SetS
  edges : List (String × SetS)
deriving DecidableEq, Repr

/-- NewGraph (src/unnamed/part_003). -/
def NewGraph : GraphS :=
  ⟨NewSet, []⟩

/-- Graph.getAdjacent on an edges map: the adjacency set stored for the
key, or a fresh empty set.  The Go version also memoizes the fresh empty
set into the map on first access; storing an empty set changes no lookup,
no membership and no merge result, so the read-only model is
observationally faithful, and the mutating operations below re-store the
set they modified exactly as the shared-map Go code does. -/
def getAdjacentM (edges : List (String × SetS)) (vertexKey : String) : SetS :=
  match mapFind edges vertexKey with
  | some adj => adj
  | none => NewSet

/-- Graph.getAdjacent (src/unnamed/part_003). -/
def getAdjacent (g : GraphS) (vertexKey : String) : SetS :=
  getAdjacentM g.edges vertexKey

/-- Graph.Lookup (src/unnamed/part_003): resolve the key through the
vertices set, mapping ErrElementNotFound to ErrVertexNotFound and a stored
non-Vertex element to ErrInvalidVertexType. -/
def GraphS.Lookup (g : GraphS) (key : String) : Except GraphErr Vertex :=
  match g.vertices.Lookup key with
  | .error .ElementNotFound => .error .VertexNotFound
  | .ok foundElement =>
    match foundElement with
    | .vertexElem v => .ok v
    | _ => .error .InvalidVertexType

/-- Liveness as the code itself decides it: Graph.Lookup succeeds. -/
def GraphS.liveB (g : GraphS) (key : String) : Bool :=
  match g.Lookup key with
  | .ok _ => true
  | .error _ => false

/-- Graph.AddVertex (src/unnamed/part_003): ErrVertexAlreadyExists if the
key currently resolves, otherwise add the vertex to the vertices set.  The
pair returns the (possibly unchanged) state Go mutates in place. -/
def GraphS.AddVertex (g : GraphS) (v : Vertex) (now : Nat) :
    GraphS × Option GraphErr :=
  match g.Lookup v.Key with
  | .ok _ => (g, some .VertexAlreadyExists)
  | .error .VertexNotFound =>
    ({ g with vertices := g.vertices.Add (.vertexElem v) now }, none)
  | .error e => (g, some e)

/-- Graph.RemoveVertex (src/unnamed/part_003): ErrVertexNotFound if the key
does not currently resolve, otherwise record the removal in the vertices
set. -/
def GraphS.RemoveVertex (g : GraphS) (key : String) (now : Nat) :
    GraphS × Option GraphErr :=
  match g.Lookup key with
  | .error e => (g, some e)
  | .ok _ => ({ g with vertices := g.vertices.Remove key now }, none)

/-- Graph.AddEdge (src/unnamed/part_003): both endpoints must currently
resolve; then an IDElement for toKey is added to fromKey's adjacency set. -/
def GraphS.AddEdge (g : GraphS) (fromKey toKey : String) (now : Nat) :
    GraphS × Option GraphErr :=
  match g.Lookup fromKey with
  | .error e => (g, some e)
  | .ok _ =>
    match g.Lookup toKey with
    | .error e => (g, some e)
    | .ok _ =>
      let adjacent := getAdjacent g fromKey
      ({ g with edges := mapSet g.edges fromKey (adjacent.Add (.idElem toKey) now) },
       none)

/-- Graph.RemoveEdge (src/unnamed/part_003): both endpoints must currently
resolve; then a removal of toKey is recorded in fromKey's adjacency set. -/
def GraphS.RemoveEdge (g : GraphS) (fromKey toKey : String) (now : Nat) :
    GraphS × Option GraphErr :=
  match g.Lookup fromKey with
  | .error e => (g, some e)
  | .ok _ =>
    match g.Lookup toKey with
    | .error e => (g, some e)
    | .ok _ =>
      let adjacent := getAdjacent g fromKey
      ({ g with edges := mapSet g.edges fromKey (adjacent.Remove toKey now) },
       none)

/-- The inner for-loop of Graph.FindConnected (src/unnamed/part_003) over
one dequeued vertex's adjacency list: a target that does not resolve is
skipped, another lookup error aborts, an unvisited live target is marked
visited, appended to the result and enqueued. -/
def bfsExpand (g : GraphS) :
    List Element → List String → List Vertex → GoSlice Vertex →
    Except GraphErr (List String × List Vertex × GoSlice Vertex)
  | [], visited, queue, connected => .ok (visited, queue, connected)
  | v :: rest, visited, queue, connected =>
    match g.Lookup v.GetKey with
    | .error .VertexNotFound => bfsExpand g rest visited queue connected
    | .error e => .error e
    | .ok vertex =>
      if visited.contains vertex.Key then bfsExpand g rest visited queue connected
      else bfsExpand g rest (vertex.Key :: visited) (queue ++ [vertex])
        (goAppend connected vertex)

/-- The queue loop of Graph.FindConnected (src/unnamed/part_003), with
explicit fuel standing in for the unbounded Go for-loop. -/
def bfsLoop (g : GraphS) :
    Nat → List String → List Vertex → GoSlice Vertex →
    Option (GoSlice Vertex × Option GraphErr)
  | 0, _, _, _ => none
  | Nat.succ fuel, visited, queue, connected =>
    match queue with
    | [] => some (connected, none)
    | current :: rest =>
      match bfsExpand g (goRange (getAdjacent g current.Key).List) visited rest
          connected with
      | .error e => some (none, some e)
      | .ok (visited2, queue2, connected2) => bfsLoop g fuel visited2 queue2 connected2

/-- Graph.FindConnected (src/unnamed/part_003): breadth-first traversal
from the key (which must resolve), over an explicitly allocated empty
result slice, an empty visited set and a queue holding the start vertex.
The fuel |additions| + 2 dominates the loop's decreasing measure
(queue length plus unvisited vertex keys), as proven below. -/
def GraphS.FindConnected (g : GraphS) (key : String) :
    Option (GoSlice Vertex × Option GraphErr) :=
  match g.Lookup key with
  | .error e => some (none, some e)
  | .ok start => bfsLoop g (g.vertices.additions.length + 2) [] [start] (some [])

/-- The for-loop of Graph.findPath (src/unnamed/part_003) over the
adjacency list: unresolvable targets are skipped, other lookup errors
abort, a target matching the search key completes the path, otherwise the
search recurses (the recursive reference to findPath is the function
argument recur) with the target appended to the current path; a recursive
ErrPathNotFound continues with the next adjacent element. -/
def dfsLoop (g : GraphS)
    (recur : Vertex → String → List Vertex → List String →
      Option (List String × Except GraphErr (List Vertex))) :
    List Element → String → List Vertex → List String →
    Option (List String × Except GraphErr (List Vertex))
  | [], _, _, visited => some (visited, .error .PathNotFound)
  | v :: rest, searchKey, currentPath, visited =>
    match g.Lookup v.GetKey with
    | .error .VertexNotFound => dfsLoop g recur rest searchKey currentPath visited
    | .error e => some (visited, .error e)
    | .ok vertex =>
      if vertex.Key = searchKey then
        some (visited, .ok (currentPath ++ [vertex]))
      else
        match recur vertex searchKey (currentPath ++ [vertex]) visited with
        | none => none
        | some (visited2, .error .PathNotFound) =>
          dfsLoop g recur rest searchKey currentPath visited2
        | some r => some r

/-- Graph.findPath (src/unnamed/part_003): one recursive DFS step.  A start
vertex already visited fails with ErrPathNotFound, otherwise it is marked
visited and its adjacency list is scanned by dfsLoop.  The visited set is a
Go map shared across the whole traversal, so it is threaded through and
returned.  Fuel stands in for the unbounded Go call stack. -/
def dfs (g : GraphS) :
    Nat → Vertex → String → List Vertex → List String →
    Option (List String × Except GraphErr (List Vertex))
  | 0, _, _, _, _ => none
  | Nat.succ fuel, start, searchKey, currentPath, visited =>
    if visited.contains start.Key then
      some (visited, .error .PathNotFound)
    else
      dfsLoop g (dfs g fuel) (goRange (getAdjacent g start.Key).List) searchKey
        currentPath (start.Key :: visited)

/-- Graph.FindPath (src/unnamed/part_003): both endpoints must resolve;
the DFS starts from the from-vertex with path [start] and an empty visited
set.  Fuel as in FindConnected. -/
def GraphS.FindPath (g : GraphS) (fromKey toKey : String) :
    Option (Except GraphErr (List Vertex)) :=
  match g.Lookup fromKey with
  | .error e => some (.error e)
  | .ok start =>
    match g.Lookup toKey with
    | .error e => some (.error e)
    | .ok _ =>
      match dfs g (g.vertices.additions.length + 2) start toKey [start] [] with
      | none => none
      | some (_, r) => some r

/-- Byte-wise lexicographic comparison of character lists: the model of
Go's string `<`, which compares strings byte-wise. -/
def lexLt : List Char → List Char → Bool
  | [], [] => false
  | [], _ :: _ => true
  | _ :: _, [] => false
  | c1 :: r1, c2 :: r2 =>
    if c1.toNat < c2.toNat then true
    else if c2.toNat < c1.toNat then false
    else lexLt r1 r2

/-- Go string `<`. -/
def strLtB (a b : String) : Bool :=
  lexLt a.data b.data

/-- The non-strict order sort.Strings and sort.Slice leave a slice in:
not strictly greater. -/
def strLe (a b : String) : Prop :=
  strLtB b a = false

instance : DecidableRel strLe := fun a b =>
  inferInstanceAs (Decidable (strLtB b a = false))

/-- The comparison Go's sort.Slice uses in Graph.List: ascending GetKey. -/
def elemLe (a b : Element) : Prop :=
  strLe a.GetKey b.GetKey

instance : DecidableRel elemLe := fun a b =>
  inferInstanceAs (Decidable (strLe a.GetKey b.GetKey))

/-- The body of the for-loop of Graph.List (src/unnamed/part_003): look the
element's key up again (any error aborts the whole call with a nil list),
collect the keys of the adjacency set's live elements, sort them and append
the VertexWithEdges row. -/
def listLoop (g : GraphS) :
    List Element → GoSlice VertexWithEdges →
    GoSlice VertexWithEdges × Option GraphErr
  | [], list => (list, none)
  | element :: rest, list =>
    match g.Lookup element.GetKey with
    | .error e => (none, some e)
    | .ok vertex =>
      let adjacent := goRange (getAdjacent g vertex.Key).List
      let adjacentKeys := List.insertionSort strLe (adjacent.map Element.GetKey)
      listLoop g rest (goAppend list ⟨vertex, adjacentKeys⟩)

/-- Graph.List (src/unnamed/part_003): the live vertices sorted by key,
each paired with the sorted keys of the live elements of its adjacency set;
starts from an explicitly allocated empty (non-nil) slice. -/
def GraphS.List (g : GraphS) : GoSlice VertexWithEdges × Option GraphErr :=
  let vertices := List.insertionSort elemLe (goRange g.vertices.List)
  listLoop g vertices (some [])

/-- The row Graph.List produces for one listed element (well-defined when
the element's key looks up successfully; the error branch is unreachable
there). -/
def rowOf (g : GraphS) (element : Element) : VertexWithEdges :=
  match g.Lookup element.GetKey with
  | .ok vertex =>
    ⟨vertex, List.insertionSort strLe
      ((goRange (getAdjacent g vertex.Key).List).map Element.GetKey)⟩
  | .error _ => ⟨⟨"", ""⟩, []⟩

/-- One iteration of the edge-replication loop of Graph.Merge
(src/unnamed/part_003): fetch (or lazily create) the local adjacency set
for the remote key, merge the remote adjacency set into it and store it. -/
def adjMergeStep (acc : List (String × SetS)) (p : String × SetS) :
    List (String × SetS) :=
  mapSet acc p.1 ((getAdjacentM acc p.1).Merge p.2)

/-- Graph.Merge (src/unnamed/part_003): merge the vertex sets, then for
every adjacency set of the remote graph merge it into the local one with
the same key (a fresh empty local set if absent), storing the result. -/
def GraphS.Merge (g remote : GraphS) : GraphS :=
  ⟨g.vertices.Merge remote.vertices, remote.edges.foldl adjMergeStep g.edges⟩

/-- Abstract view of the additions register of a set. -/
def addFind (s : SetS) (k : String) : Option AddRecord :=
  mapFind s.additions k

/-- Abstract view of the removals register of a set. -/
def remFind (s : SetS) (k : String) : Option Nat :=
  mapFind s.removals k

/-- Liveness of a key within one set, as Set.Contains decides it. -/
def setLiveB (s : SetS) (k : String) : Bool :=
  match s.Contains k with
  | .ok _ => true
  | .error _ => false

/-- Every stored addition record's element carries the map key it is stored
under (Set.Add stores records under e.GetKey()). -/
def keyCoherent (s : SetS) : Prop :=
  ∀ p ∈ s.additions, (Prod.snd p).Element.GetKey = p.1

instance (s : SetS) : Decidable (keyCoherent s) :=
  inferInstanceAs (Decidable (∀ p ∈ s.additions, _))

/-- Well-formedness of a set state: both registers are maps (no duplicate
keys) and the addition records are key coherent.  Every state reachable
through the API satisfies this. -/
def SetWF (s : SetS) : Prop :=
  NodupKeys s.additions ∧ NodupKeys s.removals ∧ keyCoherent s

instance (s : SetS) : Decidable (SetWF s) :=
  inferInstanceAs (Decidable (_ ∧ _ ∧ _))

/-- Check that an element is a Vertex carrying exactly the given key. -/
def isVertexFor : Element → String → Bool
  | .vertexElem v, k => decide (v.Key = k)
  | _, _ => false

/-- Every vertex-set record stores a Vertex element whose Key is the map
key (what Graph.AddVertex stores; merges only exchange such records). -/
def vertexCoherent (s : SetS) : Prop :=
  ∀ p ∈ s.additions, isVertexFor (Prod.snd p).Element p.1 = true

instance (s : SetS) : Decidable (vertexCoherent s) :=
  inferInstanceAs (Decidable (∀ p ∈ s.additions, _))

/-- Every adjacency-set record stores exactly the IDElement of its map key
(what Graph.AddEdge stores; merges only exchange such records). -/
def edgeCoherent (s : SetS) : Prop :=
  ∀ p ∈ s.additions, (Prod.snd p).Element = Element.idElem p.1

instance (s : SetS) : Decidable (edgeCoherent s) :=
  inferInstanceAs (Decidable (∀ p ∈ s.additions, _))

/-- Well-formedness of a graph state: the vertex set is well-formed and
holds only coherent Vertex elements, the edges map has no duplicate keys
and every adjacency set is well-formed and holds only coherent IDElements.
Every state reachable through the API satisfies this. -/
def GraphWF (g : GraphS) : Prop :=
  SetWF g.vertices ∧ vertexCoherent g.vertices ∧ NodupKeys g.edges ∧
    ∀ q ∈ g.edges, SetWF (Prod.snd q) ∧ edgeCoherent (Prod.snd q)

instance (g : GraphS) : Decidable (GraphWF g) :=
  inferInstanceAs (Decidable (_ ∧ _ ∧ _ ∧ _))

/-- Two graph states with the same abstract registers: same addition and
removal views in the vertex set and all adjacency sets. -/
def ViewEq (g1 g2 : GraphS) : Prop :=
  (∀ k, addFind g1.vertices k = addFind g2.vertices k) ∧
  (∀ k, remFind g1.vertices k = remFind g2.vertices k) ∧
  (∀ a k, addFind (getAdjacent g1 a) k = addFind (getAdjacent g2 a) k) ∧
  (∀ a k, remFind (getAdjacent g1 a) k = remFind (getAdjacent g2 a) k)

/-- Tie compatibility of the vertex registers of two replicas: additions of
the same key with equal timestamps carry equal records.  Wall-clock ties
with divergent payloads are exactly what this excludes. -/
def VCompat (g h : GraphS) : Prop :=
  ∀ p ∈ g.vertices.additions, ∀ q ∈ h.vertices.additions,
    p.1 = q.1 → (Prod.snd p).Timestamp = (Prod.snd q).Timestamp →
    Prod.snd p = Prod.snd q

instance (g h : GraphS) : Decidable (VCompat g h) :=
  inferInstanceAs (Decidable (∀ p ∈ g.vertices.additions, _))

/-- Timestamp of an optional addition record, bottom when absent. -/
def tsA : Option AddRecord → WithBot Nat
  | none => ⊥
  | some r => (r.Timestamp : WithBot Nat)

/-- An optional removal timestamp as an element of WithBot Nat. -/
def tsR : Option Nat → WithBot Nat
  | none => ⊥
  | some t => (t : WithBot Nat)

/-- A merge expression: which replica states were merged, in which
nesting.  node l r is l.Merge(r), covering pairwise merging in any order
and any number of times, including redundant re-merges. -/
inductive MTree where
  | leaf (i : Nat)
  | node (l r : MTree)

/-- Evaluate a merge expression over an assignment of replica states. -/
def MTree.evalG (f : Nat → GraphS) : MTree → GraphS
  | .leaf i => f i
  | .node l r => GraphS.Merge (evalG f l) (evalG f r)

/-- The set of replica states a merge expression incorporates. -/
def MTree.leaves : MTree → Finset Nat
  | .leaf i => {i}
  | .node l r => leaves l ∪ leaves r

/-- Number of vertex keys not yet visited, the decreasing part of the
traversal measures. -/
def unvis (g : GraphS) (visited : List String) : Nat :=
  ((mapKeys g.vertices.additions).filter (fun k => decide (k ∉ visited))).length

/-- One step of a path as the traversals take it: v was obtained by a
successful lookup of some element of u's adjacency list. -/
def edgeStepOk (g : GraphS) (u v : Vertex) : Prop :=
  ∃ e ∈ goRange (getAdjacent g u.Key).List, g.Lookup e.GetKey = .ok v

instance : DecidableEq (Except GraphErr Vertex) := fun a b =>
  match a, b with
  | .ok x, .ok y =>
    if h : x = y then isTrue (by rw [h]) else
      isFalse (fun h2 => h (by cases h2; rfl))
  | .error x, .error y =>
    if h : x = y then isTrue (by rw [h]) else
      isFalse (fun h2 => h (by cases h2; rfl))
  | .ok _, .error _ => isFalse (fun h2 => Except.noConfusion h2)
  | .error _, .ok _ => isFalse (fun h2 => Except.noConfusion h2)

/-- A vertex list follows existing edges between consecutive entries. -/
def chainOk (g : GraphS) (p : List Vertex) : Prop :=
  List.Chain' (edgeStepOk g) p

/-- Executable check of edgeStepOk. -/
def edgeStepOkB (g : GraphS) (u v : Vertex) : Bool :=
  (goRange (getAdjacent g u.Key).List).any
    (fun e => decide (g.Lookup e.GetKey = .ok v))

/-- Executable check of chainOk. -/
def chainOkB (g : GraphS) : List Vertex → Bool
  | [] => true
  | [_] => true
  | u :: v :: rest => edgeStepOkB g u v && chainOkB g (v :: rest)

/-- FindPath from a to b succeeds with a path that follows existing edges
and runs from a to b, the per-pair check of the cycle scenario of C6. -/
def pathConsistentB (g : GraphS) (a b : String) : Bool :=
  match g.FindPath a b with
  | some (.ok p) =>
    chainOkB g p && decide ((p.map Vertex.Key).head? = some a) &&
      decide ((p.map Vertex.Key).getLast? = some b)
  | _ => false

/-- The live elements of a set in register order; Set.List returns exactly
these (lemma SetS.List_eq below). -/
def liveElems (s : SetS) : List Element :=
  s.additions.filterMap
    (fun p => if s.removed p.2 then none else some p.2.Element)

/-- Scenario graph of C4/C10 and spec §8: vertices v1..v5, edges v1→v2,
v1→v3, v3→v5, v4→v3, then v3 removed. -/
def gTomb : GraphS :=
  let g1 := (NewGraph.AddVertex ⟨"v1", "x1"⟩ 1).1
  let g2 := (g1.AddVertex ⟨"v2", "x2"⟩ 2).1
  let g3 := (g2.AddVertex ⟨"v3", "x3"⟩ 3).1
  let g4 := (g3.AddVertex ⟨"v4", "x4"⟩ 4).1
  let g5 := (g4.AddVertex ⟨"v5", "x5"⟩ 5).1
  let g6 := (g5.AddEdge "v1" "v2" 6).1
  let g7 := (g6.AddEdge "v1" "v3" 7).1
  let g8 := (g7.AddEdge "v3" "v5" 8).1
  let g9 := (g8.AddEdge "v4" "v3" 9).1
  (g9.RemoveVertex "v3" 10).1

/-- Scenario graph of C5/C6: a single vertex with a self-loop edge. -/
def gLoop : GraphS :=
  let g1 := (NewGraph.AddVertex ⟨"v1", "x1"⟩ 1).1
  (g1.AddEdge "v1" "v1" 2).1

/-- Scenario graph of C5/C10: a single vertex and no edges. -/
def gSolo : GraphS :=
  (NewGraph.AddVertex ⟨"v1", "x1"⟩ 1).1

/-- Scenario graph of C6 and spec §8: the cycles v1→v2→v1 and
v2→v3→v4→v1. -/
def gCycle : GraphS :=
  let g1 := (NewGraph.AddVertex ⟨"v1", "x1"⟩ 1).1
  let g2 := (g1.AddVertex ⟨"v2", "x2"⟩ 2).1
  let g3 := (g2.AddVertex ⟨"v3", "x3"⟩ 3).1
  let g4 := (g3.AddVertex ⟨"v4", "x4"⟩ 4).1
  let g5 := (g4.AddEdge "v1" "v2" 5).1
  let g6 := (g5.AddEdge "v2" "v1" 6).1
  let g7 := (g6.AddEdge "v2" "v3" 7).1
  let g8 := (g7.AddEdge "v3" "v4" 8).1
  (g8.AddEdge "v4" "v1" 9).1

/-- Replica states of the C2 counterexample: two replicas add a vertex
with the same key and the same wall-clock timestamp but different values. -/
def cexA : GraphS :=
  (NewGraph.AddVertex ⟨"k", "x"⟩ 0).1

/-- Second replica of the C2 counterexample. -/
def cexB : GraphS :=
  (NewGraph.AddVertex ⟨"k", "y"⟩ 0).1

/-- Set state of the C1 failing input: Add(k) at time 2 merged with a
Remove(k) at time 1 from another replica — the add is strictly later. -/
def c1Set : SetS :=
  (NewSet.Add (.idElem "k") 2).Replicate (NewSet.Remove "k" 1)

/-! ### Association-list map lemmas -/

theorem mapFind_mapSet_self (m : List (String × α)) (k : String) (v : α) :
    mapFind (mapSet m k v) k = some v := by
  induction m with
  | nil => simp [mapSet, mapFind]
  | cons p rest ih =>
    by_cases h : p.1 = k
    · simp [mapSet, h, mapFind]
    · simp [mapSet, h, mapFind, ih]

theorem mapFind_mapSet_ne (m : List (String × α)) {k k' : String} (v : α)
    (h : k' ≠ k) : mapFind (mapSet m k v) k' = mapFind m k' := by
  have hne : ¬ (k = k') := fun h2 => h h2.symm
  induction m with
  | nil => simp [mapSet, mapFind, hne]
  | cons p rest ih =>
    by_cases hp : p.1 = k
    · subst hp
      simp [mapSet, mapFind, hne]
    · simp only [mapSet, hp, if_false, mapFind]
      by_cases hk : p.1 = k'
      · simp [hk]
      · simp [hk, ih]

theorem mem_mapKeys_mapSet (m : List (String × α)) (k a : String) (v : α) :
    a ∈ mapKeys (mapSet m k v) ↔ a ∈ mapKeys m ∨ a = k := by
  induction m with
  | nil => simp [mapSet, mapKeys]
  | cons p rest ih =>
    by_cases hp : p.1 = k
    · subst hp
      simp only [mapSet, if_true, mapKeys, List.map_cons, List.mem_cons]
      constructor
      · rintro (rfl | h)
        · exact Or.inr rfl
        · exact Or.inl (Or.inr h)
      · rintro ((rfl | h) | rfl)
        · exact Or.inl rfl
        · exact Or.inr h
        · exact Or.inl rfl
    · simp only [mapSet, hp, if_false, mapKeys, List.map_cons, List.mem_cons]
      rw [show (mapKeys (mapSet rest k v) = List.map Prod.fst (mapSet rest k v)) from rfl] at ih
      rw [show (mapKeys rest = List.map Prod.fst rest) from rfl] at ih
      rw [ih]
      tauto

theorem nodupKeys_mapSet (m : List (String × α)) (k : String) (v : α)
    (h : NodupKeys m) : NodupKeys (mapSet m k v) := by
  induction m with
  | nil => simp [mapSet, NodupKeys, mapKeys]
  | cons p rest ih =>
    simp only [NodupKeys, mapKeys, List.map_cons, List.nodup_cons] at h
    by_cases hp : p.1 = k
    · subst hp
      simpa [mapSet, NodupKeys, mapKeys, List.nodup_cons] using h
    · simp only [mapSet, hp, if_false]
      simp only [NodupKeys, mapKeys, List.map_cons, List.nodup_cons]
      refine ⟨?_, ih h.2⟩
      intro hmem
      rcases (mem_mapKeys_mapSet rest k p.1 v).mp hmem with h2 | h2
      · exact h.1 h2
      · exact hp h2

theorem mapFind_eq_none_iff (m : List (String × α)) (k : String) :
    mapFind m k = none ↔ k ∉ mapKeys m := by
  induction m with
  | nil => simp [mapFind, mapKeys]
  | cons p rest ih =>
    by_cases hp : p.1 = k
    · simp [mapFind, hp, mapKeys]
    · simp only [mapFind, hp, if_false, mapKeys, List.map_cons, List.mem_cons]
      rw [show (mapKeys rest = List.map Prod.fst rest) from rfl] at ih
      rw [ih]
      have hne : ¬ (k = p.1) := fun h2 => hp h2.symm
      tauto

theorem mapFind_mem {m : List (String × α)} {k : String} {v : α}
    (h : mapFind m k = some v) : (k, v) ∈ m := by
  induction m with
  | nil => simp [mapFind] at h
  | cons p rest ih =>
    by_cases hp : p.1 = k
    · simp only [mapFind, hp, if_true, Option.some.injEq] at h
      cases p with
      | mk a b =>
        simp only at hp h
        subst hp
        subst h
        exact List.mem_cons_self _ _
    · simp only [mapFind, hp, if_false] at h
      exact List.mem_cons_of_mem _ (ih h)

theorem mapFind_isSome_of_mem_keys {m : List (String × α)} {k : String}
    (h : k ∈ mapKeys m) : (mapFind m k).isSome := by
  cases hf : mapFind m k with
  | none => exact absurd h ((mapFind_eq_none_iff m k).mp hf)
  | some v => rfl

/-! ### Merge-fold characterization (Set.Replicate) -/

theorem lwwA_cases (x y : Option AddRecord) : lwwA x y = x ∨ lwwA x y = y := by
  cases x with
  | none => right; rfl
  | some a =>
    cases y with
    | none => left; rfl
    | some b =>
      by_cases h : b.Timestamp > a.Timestamp
      · right; simp [lwwA, h]
      · left; simp [lwwA, h]

theorem lwwR_cases (x y : Option Nat) : lwwR x y = x ∨ lwwR x y = y := by
  cases x with
  | none => right; rfl
  | some a =>
    cases y with
    | none => left; rfl
    | some b =>
      by_cases h : b > a
      · right; simp [lwwR, h]
      · left; simp [lwwR, h]

theorem addMergeStep_find_self (acc : List (String × AddRecord))
    (p : String × AddRecord) :
    mapFind (addMergeStep acc p) p.1 = lwwA (mapFind acc p.1) (some p.2) := by
  unfold addMergeStep
  cases hf : mapFind acc p.1 with
  | none => simp [lwwA, mapFind_mapSet_self]
  | some localRecord =>
    by_cases h : p.2.Timestamp > localRecord.Timestamp
    · simp [h, lwwA, mapFind_mapSet_self]
    · simp [h, lwwA, hf]

theorem addMergeStep_find_ne (acc : List (String × AddRecord))
    (p : String × AddRecord) {k : String} (h : k ≠ p.1) :
    mapFind (addMergeStep acc p) k = mapFind acc k := by
  unfold addMergeStep
  cases hf : mapFind acc p.1 with
  | none => exact mapFind_mapSet_ne acc _ h
  | some localRecord =>
    by_cases hgt : p.2.Timestamp > localRecord.Timestamp
    · simp only [hgt, if_true]
      exact mapFind_mapSet_ne acc _ h
    · simp [hgt]

theorem remMergeStep_find_self (acc : List (String × Nat)) (p : String × Nat) :
    mapFind (remMergeStep acc p) p.1 = lwwR (mapFind acc p.1) (some p.2) := by
  unfold remMergeStep
  cases hf : mapFind acc p.1 with
  | none => simp [lwwR, mapFind_mapSet_self]
  | some localRemovedAt =>
    by_cases h : p.2 > localRemovedAt
    · simp [h, lwwR, mapFind_mapSet_self]
    · simp [h, lwwR, hf]

theorem remMergeStep_find_ne (acc : List (String × Nat)) (p : String × Nat)
    {k : String} (h : k ≠ p.1) :
    mapFind (remMergeStep acc p) k = mapFind acc k := by
  unfold remMergeStep
  cases hf : mapFind acc p.1 with
  | none => exact mapFind_mapSet_ne acc _ h
  | some localRemovedAt =>
    by_cases hgt : p.2 > localRemovedAt
    · simp only [hgt, if_true]
      exact mapFind_mapSet_ne acc _ h
    · simp [hgt]

theorem foldl_addMergeStep_find (l : List (String × AddRecord))
    (acc : List (String × AddRecord)) (k : String) (hl : NodupKeys l) :
    mapFind (l.foldl addMergeStep acc) k = lwwA (mapFind acc k) (mapFind l k) := by
  induction l generalizing acc with
  | nil => cases hf : mapFind acc k <;> simp [mapFind, lwwA, hf]
  | cons p rest ih =>
    simp only [NodupKeys, mapKeys, List.map_cons, List.nodup_cons] at hl
    simp only [List.foldl_cons]
    by_cases hp : p.1 = k
    · subst hp
      have hrest : mapFind rest p.1 = none :=
        (mapFind_eq_none_iff rest p.1).mpr hl.1
      rw [ih _ hl.2, hrest]
      have h1 : mapFind ((p.1, p.2) :: rest) p.1 = some p.2 := by
        simp [mapFind]
      rw [show ((p : String × AddRecord) = (p.1, p.2)) from rfl] at h1 ⊢
      rw [h1, addMergeStep_find_self]
      cases lwwA (mapFind acc p.1) (some p.2) <;> simp [lwwA]
    · rw [ih _ hl.2, addMergeStep_find_ne acc p (fun h2 => hp h2.symm)]
      have : mapFind (p :: rest) k = mapFind rest k := by
        simp [mapFind, hp]
      rw [this]

theorem foldl_remMergeStep_find (l : List (String × Nat))
    (acc : List (String × Nat)) (k : String) (hl : NodupKeys l) :
    mapFind (l.foldl remMergeStep acc) k = lwwR (mapFind acc k) (mapFind l k) := by
  induction l generalizing acc with
  | nil => cases hf : mapFind acc k <;> simp [mapFind, lwwR, hf]
  | cons p rest ih =>
    simp only [NodupKeys, mapKeys, List.map_cons, List.nodup_cons] at hl
    simp only [List.foldl_cons]
    by_cases hp : p.1 = k
    · subst hp
      have hrest : mapFind rest p.1 = none :=
        (mapFind_eq_none_iff rest p.1).mpr hl.1
      rw [ih _ hl.2, hrest]
      have h1 : mapFind ((p.1, p.2) :: rest) p.1 = some p.2 := by
        simp [mapFind]
      rw [show ((p : String × Nat) = (p.1, p.2)) from rfl] at h1 ⊢
      rw [h1, remMergeStep_find_self]
      cases lwwR (mapFind acc p.1) (some p.2) <;> simp [lwwR]
    · rw [ih _ hl.2, remMergeStep_find_ne acc p (fun h2 => hp h2.symm)]
      have : mapFind (p :: rest) k = mapFind rest k := by
        simp [mapFind, hp]
      rw [this]

/-- The register-level description of Set.Replicate: per key, the additions
register is the local-biased LWW join of the two sides. -/
theorem replicate_addFind (s remote : SetS) (k : String)
    (h : NodupKeys remote.additions) :
    addFind (s.Replicate remote) k = lwwA (addFind s k) (addFind remote k) :=
  foldl_addMergeStep_find remote.additions s.additions k h

/-- The register-level description of Set.Replicate: per key, the removals
register is the local-biased LWW join of the two sides. -/
theorem replicate_remFind (s remote : SetS) (k : String)
    (h : NodupKeys remote.removals) :
    remFind (s.Replicate remote) k = lwwR (remFind s k) (remFind remote k) :=
  foldl_remMergeStep_find remote.removals s.removals k h

/-! ### Preservation of well-formedness through Set.Replicate -/

theorem mem_mapSet {m : List (String × α)} {q : String × α} {k : String}
    {v : α} (h : q ∈ mapSet m k v) : q ∈ m ∨ q = (k, v) := by
  induction m with
  | nil => simpa [mapSet] using h
  | cons p rest ih =>
    by_cases hp : p.1 = k
    · simp only [mapSet, hp, if_true, List.mem_cons] at h
      rcases h with h | h
      · exact Or.inr h
      · exact Or.inl (List.mem_cons_of_mem _ h)
    · simp only [mapSet, hp, if_false, List.mem_cons] at h
      rcases h with h | h
      · exact Or.inl (h ▸ List.mem_cons_self _ _)
      · rcases ih h with h2 | h2
        · exact Or.inl (List.mem_cons_of_mem _ h2)
        · exact Or.inr h2

theorem addMergeStep_eq_or (acc : List (String × AddRecord))
    (p : String × AddRecord) :
    addMergeStep acc p = mapSet acc p.1 p.2 ∨ addMergeStep acc p = acc := by
  unfold addMergeStep
  cases mapFind acc p.1 with
  | none => exact Or.inl rfl
  | some localRecord =>
    by_cases hgt : p.2.Timestamp > localRecord.Timestamp
    · exact Or.inl (if_pos hgt)
    · exact Or.inr (if_neg hgt)

theorem remMergeStep_eq_or (acc : List (String × Nat)) (p : String × Nat) :
    remMergeStep acc p = mapSet acc p.1 p.2 ∨ remMergeStep acc p = acc := by
  unfold remMergeStep
  cases mapFind acc p.1 with
  | none => exact Or.inl rfl
  | some localRemovedAt =>
    by_cases hgt : p.2 > localRemovedAt
    · exact Or.inl (if_pos hgt)
    · exact Or.inr (if_neg hgt)

theorem mem_addMergeStep {acc : List (String × AddRecord)}
    {p q : String × AddRecord} (h : q ∈ addMergeStep acc p) : q ∈ acc ∨ q = p := by
  rcases addMergeStep_eq_or acc p with h2 | h2
  · rw [h2] at h
    exact mem_mapSet h
  · rw [h2] at h
    exact Or.inl h

theorem mem_foldl_addMergeStep {l acc : List (String × AddRecord)}
    {q : String × AddRecord} (h : q ∈ l.foldl addMergeStep acc) :
    q ∈ acc ∨ q ∈ l := by
  induction l generalizing acc with
  | nil => exact Or.inl h
  | cons p rest ih =>
    simp only [List.foldl_cons] at h
    rcases ih h with h2 | h2
    · rcases mem_addMergeStep h2 with h3 | h3
      · exact Or.inl h3
      · exact Or.inr (h3 ▸ List.mem_cons_self _ _)
    · exact Or.inr (List.mem_cons_of_mem _ h2)

theorem nodupKeys_addMergeStep (acc : List (String × AddRecord))
    (p : String × AddRecord) (h : NodupKeys acc) :
    NodupKeys (addMergeStep acc p) := by
  rcases addMergeStep_eq_or acc p with h2 | h2 <;> rw [h2]
  · exact nodupKeys_mapSet acc _ _ h
  · exact h

theorem nodupKeys_foldl_addMergeStep (l acc : List (String × AddRecord))
    (h : NodupKeys acc) : NodupKeys (l.foldl addMergeStep acc) := by
  induction l generalizing acc with
  | nil => exact h
  | cons p rest ih => exact ih _ (nodupKeys_addMergeStep acc p h)

theorem nodupKeys_remMergeStep (acc : List (String × Nat)) (p : String × Nat)
    (h : NodupKeys acc) : NodupKeys (remMergeStep acc p) := by
  rcases remMergeStep_eq_or acc p with h2 | h2 <;> rw [h2]
  · exact nodupKeys_mapSet acc _ _ h
  · exact h

theorem nodupKeys_foldl_remMergeStep (l acc : List (String × Nat))
    (h : NodupKeys acc) : NodupKeys (l.foldl remMergeStep acc) := by
  induction l generalizing acc with
  | nil => exact h
  | cons p rest ih => exact ih _ (nodupKeys_remMergeStep acc p h)

theorem setWF_replicate {s remote : SetS} (hs : SetWF s) (hr : SetWF remote) :
    SetWF (s.Replicate remote) := by
  obtain ⟨hs1, hs2, hs3⟩ := hs
  obtain ⟨hr1, hr2, hr3⟩ := hr
  refine ⟨nodupKeys_foldl_addMergeStep _ _ hs1,
    nodupKeys_foldl_remMergeStep _ _ hs2, ?_⟩
  intro p hp
  rcases mem_foldl_addMergeStep hp with h | h
  · exact hs3 p h
  · exact hr3 p h

theorem vertexCoherent_replicate {s remote : SetS} (hs : vertexCoherent s)
    (hr : vertexCoherent remote) : vertexCoherent (s.Replicate remote) := by
  intro p hp
  rcases mem_foldl_addMergeStep hp with h | h
  · exact hs p h
  · exact hr p h

theorem edgeCoherent_replicate {s remote : SetS} (hs : edgeCoherent s)
    (hr : edgeCoherent remote) : edgeCoherent (s.Replicate remote) := by
  intro p hp
  rcases mem_foldl_addMergeStep hp with h | h
  · exact hs p h
  · exact hr p h

theorem keyCoherent_of_vertexCoherent {s : SetS} (h : vertexCoherent s) :
    keyCoherent s := by
  intro p hp
  have h2 := h p hp
  unfold isVertexFor at h2
  cases he : (Prod.snd p).Element with
  | idElem id => rw [he] at h2; cases h2
  | vertexElem v =>
    rw [he] at h2
    simp only [decide_eq_true_eq] at h2
    simpa [Element.GetKey] using h2

theorem keyCoherent_of_edgeCoherent {s : SetS} (h : edgeCoherent s) :
    keyCoherent s := by
  intro p hp
  rw [h p hp]
  rfl

/-- Coherence transported to the register view. -/
theorem addFind_coherent {s : SetS} (h : keyCoherent s) {k : String}
    {r : AddRecord} (hf : addFind s k = some r) : r.Element.GetKey = k :=
  h (k, r) (mapFind_mem hf)

theorem addFind_vertexFor {s : SetS} (h : vertexCoherent s) {k : String}
    {r : AddRecord} (hf : addFind s k = some r) : isVertexFor r.Element k :=
  h (k, r) (mapFind_mem hf)

theorem addFind_edgeFor {s : SetS} (h : edgeCoherent s) {k : String}
    {r : AddRecord} (hf : addFind s k = some r) : r.Element = Element.idElem k :=
  h (k, r) (mapFind_mem hf)

/-! ### Claim theorems C1 and C3 -/

/-- C1 (code_bug evidence): with an AddRecord for key k at timestamp 2 and
a recorded removal timestamp 1 — so the add is strictly later than every
known removal — Set.Contains still answers ErrElementNotFound and
Set.List still omits the element, because Set.removed returns true as soon
as any removal timestamp is recorded for the key, ignoring the timestamp
comparison its own comment (and the repository's Precedence test) demand.
The claim says the element must be present in this state. -/
theorem C1_later_add_does_not_revive :
    addFind c1Set "k" = some ⟨.idElem "k", 2⟩ ∧
    remFind c1Set "k" = some 1 ∧
    c1Set.Contains "k" = .error .ElementNotFound ∧
    goRange c1Set.List = [] := by
  refine ⟨?_, ?_, ?_, ?_⟩ <;> rfl

/-- C3: Set.Replicate merges per key by the local-biased LWW rule in both
registers: the local AddRecord is replaced only when the remote one is
strictly later or the key is locally absent, symmetrically for removal
timestamps; on equal timestamps the local entry is kept in both maps, and
no entry present on either side is deleted. -/
theorem C3_replicate_lww_per_key (s remote : SetS)
    (h1 : NodupKeys remote.additions) (h2 : NodupKeys remote.removals) :
    ∀ k : String,
      addFind (s.Replicate remote) k = lwwA (addFind s k) (addFind remote k) ∧
      remFind (s.Replicate remote) k = lwwR (remFind s k) (remFind remote k) ∧
      (∀ a b, addFind s k = some a → addFind remote k = some b →
        b.Timestamp ≤ a.Timestamp → addFind (s.Replicate remote) k = some a) ∧
      (∀ t u, remFind s k = some t → remFind remote k = some u →
        u ≤ t → remFind (s.Replicate remote) k = some t) ∧
      ((addFind s k).isSome ∨ (addFind remote k).isSome →
        (addFind (s.Replicate remote) k).isSome) ∧
      ((remFind s k).isSome ∨ (remFind remote k).isSome →
        (remFind (s.Replicate remote) k).isSome) := by
  intro k
  have ha := replicate_addFind s remote k h1
  have hr := replicate_remFind s remote k h2
  refine ⟨ha, hr, ?_, ?_, ?_, ?_⟩
  · intro a b hsa hrb hle
    rw [ha, hsa, hrb]
    simp [lwwA, Nat.not_lt.mpr hle]
  · intro t u hst hru hle
    rw [hr, hst, hru]
    simp [lwwR, Nat.not_lt.mpr hle]
  · intro hsome
    rw [ha]
    rcases hsome with h | h
    · cases hsa : addFind s k with
      | none => rw [hsa] at h; cases h
      | some a =>
        cases hrb : addFind remote k with
        | none => simp [lwwA]
        | some b => by_cases hgt : b.Timestamp > a.Timestamp <;> simp [lwwA, hgt]
    · cases hrb : addFind remote k with
      | none => rw [hrb] at h; cases h
      | some b =>
        cases hsa : addFind s k with
        | none => simp [lwwA]
        | some a => by_cases hgt : b.Timestamp > a.Timestamp <;> simp [lwwA, hgt]
  · intro hsome
    rw [hr]
    rcases hsome with h | h
    · cases hst : remFind s k with
      | none => rw [hst] at h; cases h
      | some t =>
        cases hru : remFind remote k with
        | none => simp [lwwR]
        | some u => by_cases hgt : u > t <;> simp [lwwR, hgt]
    · cases hru : remFind remote k with
      | none => rw [hru] at h; cases h
      | some u =>
        cases hst : remFind s k with
        | none => simp [lwwR]
        | some t => by_cases hgt : u > t <;> simp [lwwR, hgt]

/-- Witness for C3 at a concrete input: a local set holding (k, t=5) and a
removal (r, t=7) merged with a remote holding (k, t=5) with a different
element payload and a removal (r, t=7): both ties keep the local entries. -/
theorem C3_replicate_lww_per_key_witness :
    addFind ((((NewSet.Add (.idElem "k") 5).Remove "r" 7).Replicate
      ((NewSet.Add (.vertexElem ⟨"k", "z"⟩) 5).Remove "r" 7)) : SetS) "k" =
      lwwA (addFind ((NewSet.Add (.idElem "k") 5).Remove "r" 7) "k")
        (addFind ((NewSet.Add (.vertexElem ⟨"k", "z"⟩) 5).Remove "r" 7) "k") :=
  (C3_replicate_lww_per_key ((NewSet.Add (.idElem "k") 5).Remove "r" 7)
    ((NewSet.Add (.vertexElem ⟨"k", "z"⟩) 5).Remove "r" 7)
    (by decide) (by decide) "k").1

/-! ### Set.List and Set.Contains characterizations -/

theorem list_fold_eq (s : SetS) (l : List (String × AddRecord))
    (acc : List Element) :
    l.foldl (fun list p => if s.removed p.2 then list else goAppend list p.2.Element)
        (some acc) =
      some (acc ++ l.filterMap
        (fun p => if s.removed p.2 then none else some p.2.Element)) := by
  induction l generalizing acc with
  | nil => simp
  | cons p rest ih =>
    by_cases h : s.removed p.2
    · simp [h, ih]
    · simp only [List.foldl_cons]
      rw [if_neg h,
        show goAppend (some acc) p.2.Element = some (acc ++ [p.2.Element]) from rfl,
        ih (acc ++ [p.2.Element])]
      simp [List.filterMap_cons, h]

/-- Set.List returns a non-nil slice holding exactly the live elements in
register order. -/
theorem SetS.List_eq (s : SetS) : s.List = some (liveElems s) := by
  unfold SetS.List liveElems
  rw [list_fold_eq s s.additions []]
  simp

theorem mem_liveElems {s : SetS} {e : Element} :
    e ∈ liveElems s ↔ ∃ p ∈ s.additions, s.removed p.2 = false ∧ p.2.Element = e := by
  unfold liveElems
  rw [List.mem_filterMap]
  constructor
  · rintro ⟨p, hp, he⟩
    by_cases h : s.removed p.2
    · rw [if_pos h] at he
      cases he
    · rw [if_neg h] at he
      exact ⟨p, hp, Bool.of_not_eq_true h, Option.some.injEq _ _ ▸ he⟩
  · rintro ⟨p, hp, h1, h2⟩
    refine ⟨p, hp, ?_⟩
    rw [if_neg (by simp [h1]), h2]

theorem mapFind_of_mem_nodup {m : List (String × α)} (h : NodupKeys m)
    {p : String × α} (hp : p ∈ m) : mapFind m p.1 = some p.2 := by
  induction m with
  | nil => cases hp
  | cons q rest ih =>
    simp only [NodupKeys, mapKeys, List.map_cons, List.nodup_cons] at h
    rcases List.mem_cons.mp hp with h2 | h2
    · subst h2
      simp [mapFind]
    · have hne : q.1 ≠ p.1 := by
        intro h3
        exact h.1 (h3 ▸ List.mem_map_of_mem Prod.fst h2)
      simp only [mapFind, hne, if_false]
      exact ih h.2 h2

theorem mem_liveElems_find {s : SetS} (hs : NodupKeys s.additions) {e : Element} :
    e ∈ liveElems s ↔
      ∃ k r, addFind s k = some r ∧ s.removed r = false ∧ r.Element = e := by
  rw [mem_liveElems]
  constructor
  · rintro ⟨p, hp, h1, h2⟩
    exact ⟨p.1, p.2, mapFind_of_mem_nodup hs hp, h1, h2⟩
  · rintro ⟨k, r, h1, h2, h3⟩
    exact ⟨(k, r), mapFind_mem h1, h2, h3⟩

/-- Set.Contains succeeds with e exactly when the key holds a live record
carrying e. -/
theorem contains_ok_iff {s : SetS} {k : String} {e : Element} :
    s.Contains k = .ok e ↔
      ∃ r, addFind s k = some r ∧ s.removed r = false ∧ r.Element = e := by
  unfold SetS.Contains
  show (match addFind s k with
    | none => Except.error SetErr.ElementNotFound
    | some addRecord =>
      if s.removed addRecord then Except.error SetErr.ElementNotFound
      else Except.ok addRecord.Element) = Except.ok e ↔ _
  cases hf : addFind s k with
  | none =>
    simp only []
    constructor
    · intro h
      cases h
    · rintro ⟨r, hr, _⟩
      cases hr
  | some r =>
    simp only []
    by_cases h : s.removed r
    · rw [if_pos h]
      constructor
      · intro h2
        cases h2
      · rintro ⟨r2, hr2, h3, _⟩
        rw [Option.some.injEq] at hr2
        subst hr2
        rw [h] at h3
        cases h3
    · rw [if_neg h]
      constructor
      · intro h2
        rw [Except.ok.injEq] at h2
        exact ⟨r, rfl, Bool.of_not_eq_true h, h2⟩
      · rintro ⟨r2, hr2, _, h4⟩
        rw [Option.some.injEq] at hr2
        subst hr2
        rw [h4]

theorem contains_error_iff {s : SetS} {k : String} :
    s.Contains k = .error .ElementNotFound ↔
      ∀ r, addFind s k = some r → s.removed r = true := by
  unfold SetS.Contains
  show (match addFind s k with
    | none => Except.error SetErr.ElementNotFound
    | some addRecord =>
      if s.removed addRecord then Except.error SetErr.ElementNotFound
      else Except.ok addRecord.Element) = Except.error SetErr.ElementNotFound ↔ _
  cases hf : addFind s k with
  | none =>
    simp only []
    constructor
    · intro _ r hr
      cases hr
    · intro _
      trivial
  | some r =>
    simp only []
    by_cases h : s.removed r
    · rw [if_pos h]
      constructor
      · intro _ r2 hr2
        rw [Option.some.injEq] at hr2
        subst hr2
        exact h
      · intro _
        trivial
    · rw [if_neg h]
      constructor
      · intro h2
        cases h2
      · intro h2
        exact absurd (h2 r rfl) (by simpa using h)

/-- Set.removed only reads the removals register at the element's key. -/
theorem removed_congr {s1 s2 : SetS} (r : AddRecord)
    (h : remFind s1 r.Element.GetKey = remFind s2 r.Element.GetKey) :
    s1.removed r = s2.removed r := by
  unfold SetS.removed
  rw [show mapFind s1.removals r.Element.GetKey = remFind s1 r.Element.GetKey from rfl]
  rw [show mapFind s2.removals r.Element.GetKey = remFind s2 r.Element.GetKey from rfl]
  rw [h]

/-! ### The string order: totality, transitivity, antisymmetry -/

theorem lexLt_asymm : ∀ l1 l2 : List Char,
    lexLt l1 l2 = true → lexLt l2 l1 = false := by
  intro l1
  induction l1 with
  | nil =>
    intro l2 h
    cases l2 with
    | nil => cases h
    | cons c r => rfl
  | cons c1 r1 ih =>
    intro l2 h
    cases l2 with
    | nil => cases h
    | cons c2 r2 =>
      unfold lexLt at h ⊢
      by_cases h1 : c1.toNat < c2.toNat
      · rw [if_neg (Nat.lt_asymm h1), if_pos h1]
      · rw [if_neg h1] at h
        by_cases h2 : c2.toNat < c1.toNat
        · rw [if_pos h2] at h
          cases h
        · rw [if_neg h2] at h
          rw [if_neg h2, if_neg h1]
          exact ih r2 h

theorem lexLt_connex : ∀ l1 l2 : List Char,
    lexLt l1 l2 = false → lexLt l2 l1 = false → l1 = l2 := by
  intro l1
  induction l1 with
  | nil =>
    intro l2 h1 _
    cases l2 with
    | nil => rfl
    | cons c r => cases h1
  | cons c1 r1 ih =>
    intro l2 h1 h2
    cases l2 with
    | nil => cases h2
    | cons c2 r2 =>
      unfold lexLt at h1 h2
      by_cases hc1 : c1.toNat < c2.toNat
      · rw [if_pos hc1] at h1
        cases h1
      · by_cases hc2 : c2.toNat < c1.toNat
        · rw [if_pos hc2] at h2
          cases h2
        · rw [if_neg hc1, if_neg hc2] at h1
          rw [if_neg hc2, if_neg hc1] at h2
          have hceq : c1 = c2 :=
            Char.ext (UInt32.ext (Nat.le_antisymm (Nat.le_of_not_lt hc2)
              (Nat.le_of_not_lt hc1)))
          rw [hceq, ih r2 h1 h2]

theorem lexLt_trans : ∀ l1 l2 l3 : List Char,
    lexLt l1 l2 = true → lexLt l2 l3 = true → lexLt l1 l3 = true := by
  intro l1
  induction l1 with
  | nil =>
    intro l2 l3 h1 h2
    cases l3 with
    | nil =>
      cases l2 with
      | nil => cases h1
      | cons c r => cases h2
    | cons c r => rfl
  | cons c1 r1 ih =>
    intro l2 l3 h1 h2
    cases l2 with
    | nil => cases h1
    | cons c2 r2 =>
      cases l3 with
      | nil => cases h2
      | cons c3 r3 =>
        unfold lexLt at h1 h2 ⊢
        by_cases ha : c1.toNat < c2.toNat
        · by_cases hb : c2.toNat < c3.toNat
          · rw [if_pos (Nat.lt_trans ha hb)]
          · rw [if_neg hb] at h2
            by_cases hb2 : c3.toNat < c2.toNat
            · rw [if_pos hb2] at h2
              cases h2
            · have heq : c2.toNat = c3.toNat :=
                Nat.le_antisymm (Nat.le_of_not_lt hb2) (Nat.le_of_not_lt hb)
              rw [if_pos (heq ▸ ha)]
        · rw [if_neg ha] at h1
          by_cases ha2 : c2.toNat < c1.toNat
          · rw [if_pos ha2] at h1
            cases h1
          · rw [if_neg ha2] at h1
            have heqa : c1.toNat = c2.toNat :=
              Nat.le_antisymm (Nat.le_of_not_lt ha2) (Nat.le_of_not_lt ha)
            by_cases hb : c2.toNat < c3.toNat
            · rw [if_pos (heqa ▸ hb)]
            · rw [if_neg hb] at h2
              by_cases hb2 : c3.toNat < c2.toNat
              · rw [if_pos hb2] at h2
                cases h2
              · rw [if_neg hb2] at h2
                have heqb : c2.toNat = c3.toNat :=
                  Nat.le_antisymm (Nat.le_of_not_lt hb2) (Nat.le_of_not_lt hb)
                have hc1 : ¬ c1.toNat < c3.toNat := by
                  rw [heqa, heqb]
                  exact Nat.lt_irrefl _
                have hc2 : ¬ c3.toNat < c1.toNat := by
                  rw [heqa, heqb]
                  exact Nat.lt_irrefl _
                rw [if_neg hc1, if_neg hc2]
                exact ih r2 r3 h1 h2

theorem strLe_total (a b : String) : strLe a b ∨ strLe b a := by
  unfold strLe
  cases h : strLtB b a with
  | false => exact Or.inl rfl
  | true => exact Or.inr (lexLt_asymm b.data a.data h)

theorem strLe_antisymm {a b : String} (h1 : strLe a b) (h2 : strLe b a) :
    a = b := by
  unfold strLe at h1 h2
  exact String.ext (lexLt_connex a.data b.data h2 h1)

theorem strLe_trans {a b c : String} (h1 : strLe a b) (h2 : strLe b c) :
    strLe a c := by
  unfold strLe at h1 h2 ⊢
  cases h3 : strLtB c a with
  | false => rfl
  | true =>
    exfalso
    cases h4 : strLtB c b with
    | true => rw [h4] at h2; cases h2
    | false =>
      cases h5 : strLtB b c with
      | true =>
        have h6 : strLtB b a = true := lexLt_trans b.data c.data a.data h5 h3
        rw [h6] at h1
        cases h1
      | false =>
        have hbc : b = c := String.ext (lexLt_connex b.data c.data h5 h4)
        rw [hbc] at h1
        rw [h1] at h3
        cases h3

/-! ### Equality of sorted, key-nodup lists from equal membership -/

theorem sorted_nodup_ext (f : α → String) :
    ∀ l1 l2 : List α,
      l1.Pairwise (fun a b => strLe (f a) (f b)) →
      l2.Pairwise (fun a b => strLe (f a) (f b)) →
      (l1.map f).Nodup → (l2.map f).Nodup →
      (∀ x, x ∈ l1 ↔ x ∈ l2) → l1 = l2 := by
  intro l1
  induction l1 with
  | nil =>
    intro l2 _ _ _ _ hmem
    cases l2 with
    | nil => rfl
    | cons b t2 => exact absurd ((hmem b).mpr (List.mem_cons_self b t2)) (List.not_mem_nil b)
  | cons a t1 ih =>
    intro l2 hs1 hs2 hn1 hn2 hmem
    cases l2 with
    | nil => exact absurd ((hmem a).mp (List.mem_cons_self a t1)) (List.not_mem_nil a)
    | cons b t2 =>
      have hamem := (hmem a).mp (List.mem_cons_self a t1)
      have hbmem := (hmem b).mpr (List.mem_cons_self b t2)
      simp only [List.map_cons, List.nodup_cons] at hn1 hn2
      obtain ⟨hn1a, hn1t⟩ := hn1
      obtain ⟨hn2b, hn2t⟩ := hn2
      obtain ⟨hs1a, hs1t⟩ := List.pairwise_cons.mp hs1
      obtain ⟨hs2b, hs2t⟩ := List.pairwise_cons.mp hs2
      have hab : a = b := by
        rcases List.mem_cons.mp hamem with h | h
        · exact h
        · rcases List.mem_cons.mp hbmem with h2 | h2
          · exact h2.symm
          · have h3 : strLe (f b) (f a) := hs2b a h
            have h4 : strLe (f a) (f b) := hs1a b h2
            have h5 : f a = f b := strLe_antisymm h4 h3
            exact absurd (h5 ▸ List.mem_map_of_mem f h) hn2b
      subst hab
      have htails : ∀ x, x ∈ t1 ↔ x ∈ t2 := by
        intro x
        constructor
        · intro hx
          rcases List.mem_cons.mp ((hmem x).mp (List.mem_cons_of_mem a hx)) with h | h
          · subst h
            exact absurd (List.mem_map_of_mem f hx) hn1a
          · exact h
        · intro hx
          rcases List.mem_cons.mp ((hmem x).mpr (List.mem_cons_of_mem a hx)) with h | h
          · subst h
            exact absurd (List.mem_map_of_mem f hx) hn2b
          · exact h
      rw [ih t2 hs1t hs2t hn1t hn2t htails]

/-! ### Graph.Lookup characterizations -/

theorem lookup_ok_iff {g : GraphS} {k : String} {v : Vertex} :
    g.Lookup k = .ok v ↔
      ∃ r, addFind g.vertices k = some r ∧ g.vertices.removed r = false ∧
        r.Element = .vertexElem v := by
  unfold GraphS.Lookup SetS.Lookup
  cases hc : g.vertices.Contains k with
  | error e =>
    cases e
    simp only []
    constructor
    · intro h
      cases h
    · rintro ⟨r, h1, h2, h3⟩
      have : g.vertices.Contains k = .ok (Element.vertexElem v) :=
        contains_ok_iff.mpr ⟨r, h1, h2, h3⟩
      rw [hc] at this
      cases this
  | ok e =>
    obtain ⟨r, h1, h2, h3⟩ := contains_ok_iff.mp hc
    cases e with
    | idElem id =>
      simp only []
      constructor
      · intro h
        cases h
      · rintro ⟨r2, g1, g2, g3⟩
        rw [h1] at g1
        rw [Option.some.injEq] at g1
        subst g1
        rw [h3] at g3
        cases g3
    | vertexElem w =>
      simp only []
      constructor
      · intro h
        rw [Except.ok.injEq] at h
        subst h
        exact ⟨r, h1, h2, h3⟩
      · rintro ⟨r2, g1, g2, g3⟩
        rw [h1] at g1
        rw [Option.some.injEq] at g1
        subst g1
        rw [h3] at g3
        rw [Element.vertexElem.injEq] at g3
        rw [g3]

/-- Under vertex coherence a successful lookup returns the vertex stored at
exactly the looked-up key. -/
theorem lookup_ok_key {g : GraphS} (hvc : vertexCoherent g.vertices)
    {k : String} {v : Vertex} (h : g.Lookup k = .ok v) : v.Key = k := by
  obtain ⟨r, h1, _, h3⟩ := lookup_ok_iff.mp h
  have h4 := addFind_vertexFor hvc h1
  rw [h3] at h4
  unfold isVertexFor at h4
  simpa using h4

/-- Under vertex coherence a failing lookup always fails with
ErrVertexNotFound (ErrInvalidVertexType is unreachable). -/
theorem lookup_error_kind {g : GraphS} (hvc : vertexCoherent g.vertices)
    {k : String} {e : GraphErr} (h : g.Lookup k = .error e) :
    e = .VertexNotFound := by
  unfold GraphS.Lookup SetS.Lookup at h
  cases hc : g.vertices.Contains k with
  | error e2 =>
    cases e2
    rw [hc] at h
    simp only [] at h
    rw [Except.error.injEq] at h
    exact h.symm
  | ok elem =>
    rw [hc] at h
    obtain ⟨r, h1, h2, h3⟩ := contains_ok_iff.mp hc
    have h4 := addFind_vertexFor hvc h1
    rw [h3] at h4
    cases elem with
    | idElem id => cases h4
    | vertexElem w => simp only [] at h; cases h

/-- A successful lookup means a live addition record for the key exists. -/
theorem lookup_ok_of_liveB {g : GraphS} {k : String} (h : g.liveB k = true) :
    ∃ v, g.Lookup k = .ok v := by
  unfold GraphS.liveB at h
  cases hl : g.Lookup k with
  | ok v => exact ⟨v, rfl⟩
  | error e => rw [hl] at h; cases h

theorem lookup_error_of_not_liveB {g : GraphS} {k : String}
    (h : g.liveB k = false) : ∃ e, g.Lookup k = .error e := by
  unfold GraphS.liveB at h
  cases hl : g.Lookup k with
  | ok v => rw [hl] at h; cases h
  | error e => exact ⟨e, rfl⟩

theorem liveB_of_lookup_ok {g : GraphS} {k : String} {v : Vertex}
    (h : g.Lookup k = .ok v) : g.liveB k = true := by
  unfold GraphS.liveB
  rw [h]

/-- Graph.Lookup depends only on the abstract registers of the vertex set. -/
theorem contains_congr {s1 s2 : SetS}
    (ha : ∀ k, addFind s1 k = addFind s2 k)
    (hr : ∀ k, remFind s1 k = remFind s2 k) (k : String) :
    s1.Contains k = s2.Contains k := by
  unfold SetS.Contains
  rw [show mapFind s1.additions k = addFind s1 k from rfl]
  rw [show mapFind s2.additions k = addFind s2 k from rfl]
  rw [ha k]
  cases addFind s2 k with
  | none => rfl
  | some r =>
    simp only []
    rw [removed_congr r (hr r.Element.GetKey)]

theorem lookup_congr {g1 g2 : GraphS}
    (ha : ∀ k, addFind g1.vertices k = addFind g2.vertices k)
    (hr : ∀ k, remFind g1.vertices k = remFind g2.vertices k) (k : String) :
    g1.Lookup k = g2.Lookup k := by
  unfold GraphS.Lookup SetS.Lookup
  rw [contains_congr ha hr k]

/-! ### Claim theorems C8 and C9 -/

/-- C8: for a currently live key, Graph.RemoveVertex records a removal for
the key in the vertices set (leaving its additions untouched) and leaves
the edges map — every adjacency set, including the one keyed by the removed
key — exactly unchanged, returning no error. -/
theorem C8_removeVertex_frame (g : GraphS) (key : String) (now : Nat)
    (h : g.liveB key = true) :
    g.RemoveVertex key now =
      ({ g with vertices := g.vertices.Remove key now }, none) ∧
    (g.RemoveVertex key now).1.edges = g.edges ∧
    (g.RemoveVertex key now).1.vertices.additions = g.vertices.additions ∧
    (g.RemoveVertex key now).1.vertices.removals =
      mapSet g.vertices.removals key now := by
  obtain ⟨v, hv⟩ := lookup_ok_of_liveB h
  unfold GraphS.RemoveVertex
  rw [hv]
  exact ⟨rfl, rfl, rfl, rfl⟩

/-- Witness for C8: removing the live vertex of the one-vertex graph. -/
theorem C8_removeVertex_frame_witness :
    gSolo.RemoveVertex "v1" 9 =
      ({ gSolo with vertices := gSolo.vertices.Remove "v1" 9 }, none) :=
  (C8_removeVertex_frame gSolo "v1" 9 (by rfl)).1

/-- C9: Graph.AddEdge and Graph.RemoveEdge return ErrVertexNotFound and
leave the state unchanged whenever either endpoint is not currently live,
and when both are live they record an addition (resp. a removal) of the
IDElement of toKey inside fromKey's adjacency set and return no error. -/
theorem C9_edge_ops_liveness (g : GraphS) (fromKey toKey : String) (now : Nat)
    (hvc : vertexCoherent g.vertices) :
    ((g.liveB fromKey = false ∨ g.liveB toKey = false) →
      g.AddEdge fromKey toKey now = (g, some .VertexNotFound) ∧
      g.RemoveEdge fromKey toKey now = (g, some .VertexNotFound)) ∧
    (g.liveB fromKey = true → g.liveB toKey = true →
      g.AddEdge fromKey toKey now =
        (GraphS.mk g.vertices
          (mapSet g.edges fromKey ((getAdjacent g fromKey).Add (.idElem toKey) now)),
         none) ∧
      g.RemoveEdge fromKey toKey now =
        (GraphS.mk g.vertices
          (mapSet g.edges fromKey ((getAdjacent g fromKey).Remove toKey now)),
         none)) := by
  constructor
  · intro hdead
    rcases hdead with h | h
    · obtain ⟨e, he⟩ := lookup_error_of_not_liveB h
      have hk := lookup_error_kind hvc he
      subst hk
      unfold GraphS.AddEdge GraphS.RemoveEdge
      rw [he]
      exact ⟨rfl, rfl⟩
    · cases hf : g.liveB fromKey with
      | false =>
        obtain ⟨e, he⟩ := lookup_error_of_not_liveB hf
        have hk := lookup_error_kind hvc he
        subst hk
        unfold GraphS.AddEdge GraphS.RemoveEdge
        rw [he]
        exact ⟨rfl, rfl⟩
      | true =>
        obtain ⟨v, hv⟩ := lookup_ok_of_liveB hf
        obtain ⟨e, he⟩ := lookup_error_of_not_liveB h
        have hk := lookup_error_kind hvc he
        subst hk
        unfold GraphS.AddEdge GraphS.RemoveEdge
        rw [hv, he]
        exact ⟨rfl, rfl⟩
  · intro h1 h2
    obtain ⟨v1, hv1⟩ := lookup_ok_of_liveB h1
    obtain ⟨v2, hv2⟩ := lookup_ok_of_liveB h2
    unfold GraphS.AddEdge GraphS.RemoveEdge
    rw [hv1, hv2]
    exact ⟨rfl, rfl⟩

/-- Witness for C9: adding an edge toward an absent key fails with
ErrVertexNotFound and changes nothing. -/
theorem C9_edge_ops_liveness_witness :
    gSolo.AddEdge "v1" "missing" 9 = (gSolo, some .VertexNotFound) :=
  ((C9_edge_ops_liveness gSolo "v1" "missing" 9 (by decide)).1
    (Or.inr (by rfl))).1

/-! ### Claim theorem C10 -/

theorem liveElems_nil {s : SetS} (h : ∀ p ∈ s.additions, s.removed p.2 = true) :
    liveElems s = [] := by
  unfold liveElems
  have haux : ∀ l : List (String × AddRecord), (∀ p ∈ l, s.removed p.2 = true) →
      l.filterMap (fun p => if s.removed p.2 then none else some p.2.Element) = [] := by
    intro l hl
    induction l with
    | nil => rfl
    | cons p rest ih =>
      rw [List.filterMap_cons, if_pos (hl p (List.mem_cons_self p rest))]
      exact ih (fun q hq => hl q (List.mem_cons_of_mem p hq))
  exact haux s.additions h

theorem bfsExpand_all_dead {g : GraphS} {l : List Element}
    (h : ∀ e ∈ l, g.Lookup e.GetKey = .error .VertexNotFound)
    (visited : List String) (queue : List Vertex) (connected : GoSlice Vertex) :
    bfsExpand g l visited queue connected = .ok (visited, queue, connected) := by
  induction l with
  | nil => rfl
  | cons e rest ih =>
    unfold bfsExpand
    rw [h e (List.mem_cons_self e rest)]
    exact ih (fun e2 he2 => h e2 (List.mem_cons_of_mem e he2))

theorem bfsLoop_succ_nil (g : GraphS) (fuel : Nat) (visited : List String)
    (connected : GoSlice Vertex) :
    bfsLoop g (Nat.succ fuel) visited [] connected = some (connected, none) :=
  rfl

/-- C10: when nothing qualifies, the three list-producing reads return the
empty (non-nil allocated) slice, not the nil slice: Set.List on a set whose
records are all flagged removed, Graph.FindConnected on a live key all of
whose adjacency targets fail to resolve, and Graph.List on a graph whose
vertex records are all flagged removed. -/
theorem C10_empty_lists_not_nil :
    (∀ s : SetS, (∀ p ∈ s.additions, s.removed p.2 = true) →
      s.List = some []) ∧
    (∀ (g : GraphS) (key : String), vertexCoherent g.vertices →
      g.liveB key = true →
      (∀ e ∈ goRange (getAdjacent g key).List,
        g.Lookup e.GetKey = .error .VertexNotFound) →
      g.FindConnected key = some (some [], none)) ∧
    (∀ g : GraphS, (∀ p ∈ g.vertices.additions, g.vertices.removed p.2 = true) →
      g.List = (some [], none)) := by
  refine ⟨?_, ?_, ?_⟩
  · intro s h
    rw [SetS.List_eq, liveElems_nil h]
  · intro g key hvc hl hdead
    obtain ⟨start, hstart⟩ := lookup_ok_of_liveB hl
    have hkey : start.Key = key := lookup_ok_key hvc hstart
    unfold GraphS.FindConnected
    rw [hstart]
    have h2 : g.vertices.additions.length + 2 =
        Nat.succ (g.vertices.additions.length + 1) := rfl
    rw [h2]
    show (match bfsExpand g (goRange (getAdjacent g start.Key).List) [] []
        (some []) with
      | .error e => some (none, some e)
      | .ok (visited2, queue2, connected2) =>
        bfsLoop g (g.vertices.additions.length + 1) visited2 queue2 connected2) =
      some (some [], none)
    rw [hkey, bfsExpand_all_dead hdead [] [] (some [])]
    show bfsLoop g (Nat.succ g.vertices.additions.length) [] [] (some []) =
      some (some [], none)
    exact bfsLoop_succ_nil g _ [] (some [])
  · intro g h
    unfold GraphS.List
    rw [SetS.List_eq, liveElems_nil h]
    rfl

/-! ### BFS termination and soundness (Graph.FindConnected) -/

theorem addFind_mem_keys {s : SetS} {k : String} {r : AddRecord}
    (h : addFind s k = some r) : k ∈ mapKeys s.additions := by
  by_contra h2
  rw [show addFind s k = mapFind s.additions k from rfl,
    (mapFind_eq_none_iff s.additions k).mpr h2] at h
  cases h

theorem filter_notMem_le (l : List String) (k : String) (visited : List String) :
    (l.filter fun x => decide (x ∉ k :: visited)).length ≤
      (l.filter fun x => decide (x ∉ visited)).length := by
  have hsub : List.Sublist (l.filter fun x => decide (x ∉ k :: visited))
      (l.filter fun x => decide (x ∉ visited)) := by
    apply List.monotone_filter_right
    intro a ha
    simp only [decide_eq_true_eq, List.mem_cons, not_or] at ha ⊢
    exact ha.2
  exact hsub.length_le

theorem filter_notMem_lt (k : String) (visited : List String) :
    ∀ l : List String, k ∈ l → k ∉ visited →
      (l.filter fun x => decide (x ∉ k :: visited)).length <
        (l.filter fun x => decide (x ∉ visited)).length := by
  intro l
  induction l with
  | nil => intro h; cases h
  | cons a rest ih =>
    intro hk hnv
    rcases List.mem_cons.mp hk with h | h
    · subst h
      rw [List.filter_cons, List.filter_cons]
      have h1 : (decide (k ∉ k :: visited)) = false := by
        simp
      have h2 : (decide (k ∉ visited)) = true := by
        simpa using hnv
      rw [h1, h2]
      simp only [if_false, if_true, List.length_cons]
      exact Nat.lt_succ_of_le (filter_notMem_le rest k visited)
    · rw [List.filter_cons, List.filter_cons]
      have hle : ∀ b1 b2 : Bool, (decide (a ∉ k :: visited) = b1) →
          (decide (a ∉ visited) = b2) → b1 = true → b2 = true := by
        intro b1 b2 e1 e2 hb1
        subst e1
        subst e2
        simp only [decide_eq_true_eq, List.mem_cons, not_or] at hb1 ⊢
        exact hb1.2
      have hstep := ih h hnv
      cases hb1 : decide (a ∉ k :: visited) with
      | true =>
        rw [hle _ _ hb1 rfl rfl]
        simpa using Nat.succ_lt_succ hstep
      | false =>
        cases hb2 : decide (a ∉ visited) with
        | true =>
          simp only [if_false, if_true, List.length_cons]
          exact Nat.lt_succ_of_lt hstep
        | false =>
          simpa using hstep

theorem unvis_cons_lt {g : GraphS} {k : String} {visited : List String}
    (hk : k ∈ mapKeys g.vertices.additions) (hnv : k ∉ visited) :
    unvis g (k :: visited) < unvis g visited :=
  filter_notMem_lt k visited (mapKeys g.vertices.additions) hk hnv

theorem unvis_nil (g : GraphS) : unvis g [] = g.vertices.additions.length := by
  unfold unvis
  have : (mapKeys g.vertices.additions).filter (fun k => decide (k ∉ ([] : List String)))
      = mapKeys g.vertices.additions := by
    apply List.filter_eq_self.mpr
    intro a _
    simp
  rw [this]
  exact List.length_map _ _

theorem goRange_goAppend (s : GoSlice α) (x : α) :
    goRange (goAppend s x) = goRange s ++ [x] := by
  cases s <;> rfl

theorem goAppend_isSome (s : GoSlice α) (x : α) :
    (goAppend s x : Option (List α)).isSome = true := by
  cases s <;> rfl

/-- The inner BFS loop never errors on a coherent vertex set, its visited
set only grows, its queue-plus-unvisited measure does not grow, and every
vertex it appends to the queue or the result was obtained from a successful
lookup (hence is live). -/
theorem bfsExpand_spec {g : GraphS} (hvc : vertexCoherent g.vertices) :
    ∀ (l : List Element) (visited : List String) (queue : List Vertex)
      (connected : GoSlice Vertex),
      ∃ visited2 queue2 connected2,
        bfsExpand g l visited queue connected = .ok (visited2, queue2, connected2) ∧
        queue2.length + unvis g visited2 ≤ queue.length + unvis g visited ∧
        (∀ x ∈ visited, x ∈ visited2) ∧
        (∀ v ∈ queue2, v ∈ queue ∨ g.liveB v.Key = true) ∧
        (∀ v ∈ goRange connected2, v ∈ goRange connected ∨ g.liveB v.Key = true) ∧
        ((connected : Option (List Vertex)).isSome = true →
          (connected2 : Option (List Vertex)).isSome = true) := by
  intro l
  induction l with
  | nil =>
    intro visited queue connected
    exact ⟨visited, queue, connected, rfl, le_refl _, fun x h => h,
      fun v h => Or.inl h, fun v h => Or.inl h, fun h => h⟩
  | cons e rest ih =>
    intro visited queue connected
    cases hl : g.Lookup e.GetKey with
    | error err =>
      have herr : err = .VertexNotFound := lookup_error_kind hvc hl
      subst herr
      obtain ⟨v2, q2, c2, heq, hm, hv, hq, hc, hs⟩ := ih visited queue connected
      refine ⟨v2, q2, c2, ?_, hm, hv, hq, hc, hs⟩
      unfold bfsExpand
      rw [hl]
      exact heq
    | ok vertex =>
      by_cases hvis : visited.contains vertex.Key
      · obtain ⟨v2, q2, c2, heq, hm, hv, hq, hc, hs⟩ := ih visited queue connected
        refine ⟨v2, q2, c2, ?_, hm, hv, hq, hc, hs⟩
        unfold bfsExpand
        rw [hl]
        simp only []
        rw [if_pos hvis]
        exact heq
      · obtain ⟨v2, q2, c2, heq, hm, hv, hq, hc, hs⟩ :=
          ih (vertex.Key :: visited) (queue ++ [vertex]) (goAppend connected vertex)
        have hlive : g.liveB vertex.Key = true := by
          have hk : vertex.Key = e.GetKey := lookup_ok_key hvc hl
          rw [hk]
          exact liveB_of_lookup_ok hl
        have hkeys : vertex.Key ∈ mapKeys g.vertices.additions := by
          obtain ⟨r, hr, _, _⟩ := lookup_ok_iff.mp hl
          have hk : vertex.Key = e.GetKey := lookup_ok_key hvc hl
          rw [hk]
          exact addFind_mem_keys hr
        have hnv : vertex.Key ∉ visited := by
          intro h2
          exact hvis (List.elem_iff.mpr h2)
        refine ⟨v2, q2, c2, ?_, ?_, ?_, ?_, ?_, ?_⟩
        · unfold bfsExpand
          rw [hl]
          simp only []
          rw [if_neg hvis]
          exact heq
        · calc q2.length + unvis g v2
              ≤ (queue ++ [vertex]).length + unvis g (vertex.Key :: visited) := hm
            _ = queue.length + (unvis g (vertex.Key :: visited) + 1) := by
                rw [List.length_append]
                simp [Nat.add_comm, Nat.add_assoc, Nat.add_left_comm]
            _ ≤ queue.length + unvis g visited := by
                have := unvis_cons_lt hkeys hnv
                omega
        · intro x hx
          exact hv x (List.mem_cons_of_mem _ hx)
        · intro v hvq
          rcases hq v hvq with h | h
          · rcases List.mem_append.mp h with h2 | h2
            · exact Or.inl h2
            · rcases List.mem_singleton.mp h2 with rfl
              exact Or.inr hlive
          · exact Or.inr h
        · intro v hvc2
          rcases hc v hvc2 with h | h
          · rw [goRange_goAppend] at h
            rcases List.mem_append.mp h with h2 | h2
            · exact Or.inl h2
            · rcases List.mem_singleton.mp h2 with rfl
              exact Or.inr hlive
          · exact Or.inr h
        · intro _
          exact hs (goAppend_isSome connected vertex)

/-- The BFS queue loop completes within any fuel strictly dominating the
queue-plus-unvisited measure, never errors, and returns a non-nil result
slice all of whose vertices are live. -/
theorem bfsLoop_spec {g : GraphS} (hvc : vertexCoherent g.vertices) :
    ∀ (fuel : Nat) (visited : List String) (queue : List Vertex)
      (connected : GoSlice Vertex),
      queue.length + unvis g visited < fuel →
      (∀ v ∈ goRange connected, g.liveB v.Key = true) →
      (connected : Option (List Vertex)).isSome = true →
      ∃ l2, bfsLoop g fuel visited queue connected = some (some l2, none) ∧
        ∀ v ∈ l2, g.liveB v.Key = true := by
  intro fuel
  induction fuel with
  | zero =>
    intro visited queue connected hm
    exact absurd hm (Nat.not_lt_zero _)
  | succ fuel ih =>
    intro visited queue connected hm hlive hsome
    cases queue with
    | nil =>
      cases hc : (connected : Option (List Vertex)) with
      | none => rw [hc] at hsome; cases hsome
      | some l2 =>
        subst hc
        refine ⟨l2, rfl, ?_⟩
        intro v hv
        exact hlive v hv
    | cons current rest =>
      obtain ⟨v2, q2, c2, heq, hm2, _, _, hc2, hs2⟩ :=
        bfsExpand_spec hvc (goRange (getAdjacent g current.Key).List) visited
          rest connected
      have hstep : bfsLoop g (Nat.succ fuel) visited (current :: rest) connected =
          bfsLoop g fuel v2 q2 c2 := by
        show (match bfsExpand g (goRange (getAdjacent g current.Key).List) visited
            rest connected with
          | .error e => some (none, some e)
          | .ok (visited2, queue2, connected2) =>
            bfsLoop g fuel visited2 queue2 connected2) = _
        rw [heq]
      rw [hstep]
      apply ih
      · have : rest.length + unvis g visited < fuel := by
          simp only [List.length_cons] at hm
          omega
        omega
      · intro v hv
        rcases hc2 v hv with h | h
        · exact hlive v h
        · exact h
      · exact hs2 hsome

/-- FindConnected on a live key of a well-formed graph completes, returns
no error and a non-nil list, and every returned vertex is currently live. -/
theorem findConnected_live {g : GraphS} (hvc : vertexCoherent g.vertices)
    {key : String} (hl : g.liveB key = true) :
    ∃ l, g.FindConnected key = some (some l, none) ∧
      ∀ v ∈ l, g.liveB v.Key = true := by
  obtain ⟨start, hstart⟩ := lookup_ok_of_liveB hl
  unfold GraphS.FindConnected
  rw [hstart]
  apply bfsLoop_spec hvc
  · rw [unvis_nil]
    simp only [List.length_cons, List.length_nil]
    omega
  · intro v hv
    cases hv
  · rfl

/-- FindConnected terminates (returns a value) on every input over a
well-formed graph. -/
theorem findConnected_total {g : GraphS} (hvc : vertexCoherent g.vertices)
    (key : String) : (g.FindConnected key).isSome = true := by
  cases hlive : g.liveB key with
  | true =>
    obtain ⟨l, hl, _⟩ := findConnected_live hvc hlive
    rw [hl]
    rfl
  | false =>
    obtain ⟨e, he⟩ := lookup_error_of_not_liveB hlive
    unfold GraphS.FindConnected
    rw [he]
    rfl

/-! ### Claim theorem C4 -/

/-- C4: on a well-formed graph, FindConnected from a live key returns
without error a (non-nil) list containing only currently live vertices — a
non-live adjacency target is silently skipped rather than returned or
raised as an error; concretely, in the v1..v5 graph with edges v1→v2,
v1→v3, v3→v5, v4→v3 and v3 removed, FindConnected(v1) returns exactly
{v2} (v3 is skipped and v5 is not reached through it), while the stored
adjacency of v1 still lists v3. -/
theorem C4_dead_adjacency_targets_skipped (g : GraphS) (key : String)
    (hwf : GraphWF g) (hl : g.liveB key = true) :
    (∃ l, g.FindConnected key = some (some l, none) ∧
      ∀ v ∈ l, g.liveB v.Key = true) ∧
    gTomb.FindConnected "v1" = some (some [⟨"v2", "x2"⟩], none) ∧
    gTomb.liveB "v3" = false ∧
    (gTomb.List).1 = some
      [⟨⟨"v1", "x1"⟩, ["v2", "v3"]⟩, ⟨⟨"v2", "x2"⟩, []⟩,
       ⟨⟨"v4", "x4"⟩, ["v3"]⟩, ⟨⟨"v5", "x5"⟩, []⟩] := by
  refine ⟨findConnected_live hwf.2.1 hl, ?_, ?_, ?_⟩ <;> rfl

/-- Witness for C4: the scenario graph itself at its live key v1. -/
theorem C4_dead_adjacency_targets_skipped_witness :
    ∃ l, gTomb.FindConnected "v1" = some (some l, none) ∧
      ∀ v ∈ l, gTomb.liveB v.Key = true :=
  (C4_dead_adjacency_targets_skipped gTomb "v1" (by decide) (by rfl)).1

/-! ### DFS termination and soundness (Graph.FindPath) -/

theorem dfs_succ (g : GraphS) (fuel : Nat) (start : Vertex) (searchKey : String)
    (currentPath : List Vertex) (visited : List String) :
    dfs g (Nat.succ fuel) start searchKey currentPath visited =
      if visited.contains start.Key then some (visited, .error .PathNotFound)
      else dfsLoop g (dfs g fuel) (goRange (getAdjacent g start.Key).List)
        searchKey currentPath (start.Key :: visited) :=
  rfl

theorem dfsLoop_cons (g : GraphS)
    (recur : Vertex → String → List Vertex → List String →
      Option (List String × Except GraphErr (List Vertex)))
    (e : Element) (rest : List Element) (searchKey : String)
    (currentPath : List Vertex) (visited : List String) :
    dfsLoop g recur (e :: rest) searchKey currentPath visited =
      match g.Lookup e.GetKey with
      | .error .VertexNotFound => dfsLoop g recur rest searchKey currentPath visited
      | .error err => some (visited, .error err)
      | .ok vertex =>
        if vertex.Key = searchKey then
          some (visited, .ok (currentPath ++ [vertex]))
        else
          match recur vertex searchKey (currentPath ++ [vertex]) visited with
          | none => none
          | some (visited2, .error .PathNotFound) =>
            dfsLoop g recur rest searchKey currentPath visited2
          | some r => some r :=
  rfl

/-- Termination, visited growth and error classification of the DFS loop,
given the same facts for the recursive calls it makes. -/
theorem dfsLoop_term {g : GraphS} (hvc : vertexCoherent g.vertices) (fuel : Nat)
    (ihdfs : ∀ (start : Vertex) (searchKey : String) (currentPath : List Vertex)
      (visited : List String),
      unvis g visited < fuel → start.Key ∈ mapKeys g.vertices.additions →
      ∃ out, dfs g fuel start searchKey currentPath visited = some out ∧
        (∀ x ∈ visited, x ∈ out.1) ∧ unvis g out.1 ≤ unvis g visited ∧
        (∀ e2, out.2 = .error e2 → e2 = .PathNotFound)) :
    ∀ (l : List Element) (searchKey : String) (currentPath : List Vertex)
      (visited : List String),
      unvis g visited < fuel →
      ∃ out, dfsLoop g (dfs g fuel) l searchKey currentPath visited = some out ∧
        (∀ x ∈ visited, x ∈ out.1) ∧ unvis g out.1 ≤ unvis g visited ∧
        (∀ e2, out.2 = .error e2 → e2 = .PathNotFound) := by
  intro l
  induction l with
  | nil =>
    intro searchKey currentPath visited _
    refine ⟨(visited, .error .PathNotFound), rfl, fun x h => h, le_refl _, ?_⟩
    intro e2 h2
    rw [Except.error.injEq] at h2
    exact h2.symm
  | cons e rest ih =>
    intro searchKey currentPath visited hm
    rw [dfsLoop_cons]
    cases hl : g.Lookup e.GetKey with
    | error err =>
      have herr := lookup_error_kind hvc hl
      subst herr
      exact ih searchKey currentPath visited hm
    | ok vertex =>
      simp only []
      by_cases hk : vertex.Key = searchKey
      · rw [if_pos hk]
        refine ⟨(visited, .ok (currentPath ++ [vertex])), rfl, fun x h => h,
          le_refl _, ?_⟩
        intro e2 h2
        cases h2
      · rw [if_neg hk]
        have hmem : vertex.Key ∈ mapKeys g.vertices.additions := by
          obtain ⟨r, hr, _, _⟩ := lookup_ok_iff.mp hl
          rw [lookup_ok_key hvc hl]
          exact addFind_mem_keys hr
        obtain ⟨out1, hout1, hmono1, hunv1, herr1⟩ :=
          ihdfs vertex searchKey (currentPath ++ [vertex]) visited hm hmem
        rw [hout1]
        obtain ⟨v3, res3⟩ := out1
        cases res3 with
        | error e3 =>
          have he3 : e3 = .PathNotFound := herr1 e3 rfl
          subst he3
          simp only []
          obtain ⟨out2, hout2, hmono2, hunv2, herr2⟩ :=
            ih searchKey currentPath v3 (Nat.lt_of_le_of_lt hunv1 hm)
          refine ⟨out2, hout2, ?_, Nat.le_trans hunv2 hunv1, herr2⟩
          intro x hx
          exact hmono2 x (hmono1 x hx)
        | ok p3 =>
          exact ⟨(v3, .ok p3), rfl, hmono1, hunv1, fun e2 h2 => by cases h2⟩

/-- Termination, visited growth and error classification of Graph.findPath:
the DFS completes within any fuel strictly dominating the number of
unvisited vertex keys, and its only error is ErrPathNotFound. -/
theorem dfs_term {g : GraphS} (hvc : vertexCoherent g.vertices) :
    ∀ (fuel : Nat) (start : Vertex) (searchKey : String)
      (currentPath : List Vertex) (visited : List String),
      unvis g visited < fuel → start.Key ∈ mapKeys g.vertices.additions →
      ∃ out, dfs g fuel start searchKey currentPath visited = some out ∧
        (∀ x ∈ visited, x ∈ out.1) ∧ unvis g out.1 ≤ unvis g visited ∧
        (∀ e2, out.2 = .error e2 → e2 = .PathNotFound) := by
  intro fuel
  induction fuel with
  | zero =>
    intro start searchKey currentPath visited hm
    exact absurd hm (Nat.not_lt_zero _)
  | succ fuel ih =>
    intro start searchKey currentPath visited hm hmem
    rw [dfs_succ]
    by_cases hvis : visited.contains start.Key
    · rw [if_pos hvis]
      refine ⟨(visited, .error .PathNotFound), rfl, fun x h => h, le_refl _, ?_⟩
      intro e2 h2
      rw [Except.error.injEq] at h2
      exact h2.symm
    · rw [if_neg hvis]
      have hnv : start.Key ∉ visited := fun h2 => hvis (List.elem_iff.mpr h2)
      have hlt : unvis g (start.Key :: visited) < unvis g visited :=
        unvis_cons_lt hmem hnv
      obtain ⟨out, hout, hmono, hunv, herr⟩ :=
        dfsLoop_term hvc fuel ih (goRange (getAdjacent g start.Key).List)
          searchKey currentPath (start.Key :: visited) (by omega)
      refine ⟨out, hout, ?_, ?_, herr⟩
      · intro x hx
        exact hmono x (List.mem_cons_of_mem _ hx)
      · omega

/-- Soundness of successful DFS loop results: the returned path extends the
current path along existing edges up to a vertex carrying the search key. -/
theorem dfsLoop_sound {g : GraphS} (hvc : vertexCoherent g.vertices) (fuel : Nat)
    (ihdfs : ∀ (start : Vertex) (searchKey : String) (currentPath : List Vertex)
      (visited visited2 : List String) (p : List Vertex),
      dfs g fuel start searchKey currentPath visited = some (visited2, .ok p) →
      currentPath.getLast? = some start → chainOk g currentPath →
      chainOk g p ∧ p.head? = currentPath.head? ∧
        currentPath.length + 1 ≤ p.length ∧
        ∃ t, p.getLast? = some t ∧ t.Key = searchKey) :
    ∀ (l : List Element) (startV : Vertex) (searchKey : String)
      (currentPath : List Vertex) (visited visited2 : List String)
      (p : List Vertex),
      dfsLoop g (dfs g fuel) l searchKey currentPath visited =
        some (visited2, .ok p) →
      currentPath.getLast? = some startV → chainOk g currentPath →
      (∀ e ∈ l, e ∈ goRange (getAdjacent g startV.Key).List) →
      chainOk g p ∧ p.head? = currentPath.head? ∧
        currentPath.length + 1 ≤ p.length ∧
        ∃ t, p.getLast? = some t ∧ t.Key = searchKey := by
  intro l
  induction l with
  | nil =>
    intro startV searchKey currentPath visited visited2 p hres
    cases hres
  | cons e rest ih =>
    intro startV searchKey currentPath visited visited2 p hres hlast hchain hsub
    rw [dfsLoop_cons] at hres
    have hchainext : ∀ vertex : Vertex, g.Lookup e.GetKey = .ok vertex →
        chainOk g (currentPath ++ [vertex]) := by
      intro vertex hl
      unfold chainOk
      rw [List.chain'_append]
      refine ⟨hchain, List.chain'_singleton vertex, ?_⟩
      intro x hx y hy
      rw [hlast, Option.mem_def, Option.some.injEq] at hx
      simp only [List.head?_cons, Option.mem_def, Option.some.injEq] at hy
      subst hx
      subst hy
      exact ⟨e, hsub e (List.mem_cons_self e rest), hl⟩
    have hne : currentPath ≠ [] := by
      intro h2
      rw [h2] at hlast
      cases hlast
    cases hl : g.Lookup e.GetKey with
    | error err =>
      cases err with
      | VertexNotFound =>
        rw [hl] at hres
        exact ih startV searchKey currentPath visited visited2 p hres hlast hchain
          (fun e2 he2 => hsub e2 (List.mem_cons_of_mem e he2))
      | VertexAlreadyExists =>
        exact absurd (lookup_error_kind hvc hl) (by decide)
      | InvalidVertexType =>
        exact absurd (lookup_error_kind hvc hl) (by decide)
      | PathNotFound =>
        exact absurd (lookup_error_kind hvc hl) (by decide)
    | ok vertex =>
      rw [hl] at hres
      simp only [] at hres
      by_cases hk : vertex.Key = searchKey
      · rw [if_pos hk] at hres
        rw [Option.some.injEq, Prod.mk.injEq] at hres
        obtain ⟨_, hres2⟩ := hres
        rw [Except.ok.injEq] at hres2
        subst hres2
        refine ⟨hchainext vertex hl, ?_, ?_, ?_⟩
        · cases currentPath with
          | nil => exact absurd rfl hne
          | cons a t => rfl
        · rw [List.length_append, List.length_singleton]
        · exact ⟨vertex, List.getLast?_concat _, hk⟩
      · rw [if_neg hk] at hres
        cases hdfs : dfs g fuel vertex searchKey (currentPath ++ [vertex]) visited with
        | none =>
          rw [hdfs] at hres
          cases hres
        | some out1 =>
          rw [hdfs] at hres
          obtain ⟨v3, res3⟩ := out1
          cases res3 with
          | error e3 =>
            cases e3 with
            | PathNotFound =>
              simp only [] at hres
              exact ih startV searchKey currentPath v3 visited2 p hres hlast hchain
                (fun e2 he2 => hsub e2 (List.mem_cons_of_mem e he2))
            | VertexAlreadyExists => simp only [] at hres; cases hres
            | InvalidVertexType =>
              simp only [] at hres
              rw [Option.some.injEq, Prod.mk.injEq] at hres
              obtain ⟨_, h2⟩ := hres
              cases h2
            | VertexNotFound =>
              simp only [] at hres
              rw [Option.some.injEq, Prod.mk.injEq] at hres
              obtain ⟨_, h2⟩ := hres
              cases h2
          | ok p3 =>
            simp only [] at hres
            rw [Option.some.injEq, Prod.mk.injEq] at hres
            obtain ⟨_, h2⟩ := hres
            rw [Except.ok.injEq] at h2
            subst h2
            have hinv : (currentPath ++ [vertex]).getLast? = some vertex :=
              List.getLast?_concat _
            obtain ⟨hc3, hh3, hl3, ht3⟩ :=
              ihdfs vertex searchKey (currentPath ++ [vertex]) visited v3 _ hdfs
                hinv (hchainext vertex hl)
            refine ⟨hc3, ?_, ?_, ht3⟩
            · rw [hh3]
              cases currentPath with
              | nil => exact absurd rfl hne
              | cons a t => rfl
            · rw [List.length_append, List.length_singleton] at hl3
              omega

/-- Soundness of successful Graph.findPath results. -/
theorem dfs_sound {g : GraphS} (hvc : vertexCoherent g.vertices) :
    ∀ (fuel : Nat) (start : Vertex) (searchKey : String)
      (currentPath : List Vertex) (visited visited2 : List String)
      (p : List Vertex),
      dfs g fuel start searchKey currentPath visited = some (visited2, .ok p) →
      currentPath.getLast? = some start → chainOk g currentPath →
      chainOk g p ∧ p.head? = currentPath.head? ∧
        currentPath.length + 1 ≤ p.length ∧
        ∃ t, p.getLast? = some t ∧ t.Key = searchKey := by
  intro fuel
  induction fuel with
  | zero =>
    intro start searchKey currentPath visited visited2 p hres
    cases hres
  | succ fuel ih =>
    intro start searchKey currentPath visited visited2 p hres hlast hchain
    rw [dfs_succ] at hres
    by_cases hvis : visited.contains start.Key
    · rw [if_pos hvis] at hres
      rw [Option.some.injEq, Prod.mk.injEq] at hres
      obtain ⟨_, h2⟩ := hres
      cases h2
    · rw [if_neg hvis] at hres
      exact dfsLoop_sound hvc fuel ih (goRange (getAdjacent g start.Key).List)
        start searchKey currentPath (start.Key :: visited) visited2 p hres hlast
        hchain (fun e2 he2 => he2)

/-- Graph.FindPath terminates (returns a value) on every input over a
coherent vertex set. -/
theorem findPath_total {g : GraphS} (hvc : vertexCoherent g.vertices)
    (fromKey toKey : String) : (g.FindPath fromKey toKey).isSome = true := by
  unfold GraphS.FindPath
  cases hf : g.Lookup fromKey with
  | error e => rfl
  | ok start =>
    cases ht : g.Lookup toKey with
    | error e => rfl
    | ok target =>
      simp only []
      have hmem : start.Key ∈ mapKeys g.vertices.additions := by
        obtain ⟨r, hr, _, _⟩ := lookup_ok_iff.mp hf
        rw [lookup_ok_key hvc hf]
        exact addFind_mem_keys hr
      have hm : unvis g [] < g.vertices.additions.length + 2 := by
        rw [unvis_nil]
        omega
      obtain ⟨out, hout, _, _, _⟩ :=
        dfs_term hvc (g.vertices.additions.length + 2) start toKey [start] [] hm hmem
      rw [hout]
      rfl

/-- A successful Graph.FindPath starts at the from-vertex, ends at a vertex
carrying the to-key, follows existing edges, and traverses at least one
edge. -/
theorem findPath_ok_sound {g : GraphS} (hvc : vertexCoherent g.vertices)
    {fromKey toKey : String} {p : List Vertex}
    (hres : g.FindPath fromKey toKey = some (.ok p)) :
    chainOk g p ∧ (∃ s, g.Lookup fromKey = .ok s ∧ p.head? = some s) ∧
      (∃ t, p.getLast? = some t ∧ t.Key = toKey) ∧ 2 ≤ p.length := by
  unfold GraphS.FindPath at hres
  cases hf : g.Lookup fromKey with
  | error e =>
    rw [hf] at hres
    simp only [] at hres
    rw [Option.some.injEq] at hres
    cases hres
  | ok start =>
    rw [hf] at hres
    cases ht : g.Lookup toKey with
    | error e =>
      rw [ht] at hres
      simp only [] at hres
      rw [Option.some.injEq] at hres
      cases hres
    | ok target =>
      rw [ht] at hres
      simp only [] at hres
      cases hdfs : dfs g (g.vertices.additions.length + 2) start toKey [start] [] with
      | none =>
        rw [hdfs] at hres
        cases hres
      | some out =>
        rw [hdfs] at hres
        obtain ⟨v2, res2⟩ := out
        simp only [] at hres
        rw [Option.some.injEq] at hres
        subst hres
        obtain ⟨hc, hh, hl, ht2⟩ := dfs_sound hvc _ start toKey [start] [] v2 p
          hdfs rfl (List.chain'_singleton start)
        refine ⟨hc, ⟨start, rfl, ?_⟩, ht2, ?_⟩
        · rw [hh]
          rfl
        · simpa using hl

/-- A failing Graph.FindPath between two live keys fails with
ErrPathNotFound. -/
theorem findPath_error_kind {g : GraphS} (hvc : vertexCoherent g.vertices)
    {fromKey toKey : String} {e : GraphErr}
    (hres : g.FindPath fromKey toKey = some (.error e))
    (h1 : g.liveB fromKey = true) (h2 : g.liveB toKey = true) :
    e = .PathNotFound := by
  obtain ⟨start, hf⟩ := lookup_ok_of_liveB h1
  obtain ⟨target, ht⟩ := lookup_ok_of_liveB h2
  unfold GraphS.FindPath at hres
  rw [hf, ht] at hres
  simp only [] at hres
  have hmem : start.Key ∈ mapKeys g.vertices.additions := by
    obtain ⟨r, hr, _, _⟩ := lookup_ok_iff.mp hf
    rw [lookup_ok_key hvc hf]
    exact addFind_mem_keys hr
  have hm : unvis g [] < g.vertices.additions.length + 2 := by
    rw [unvis_nil]
    omega
  obtain ⟨out, hout, _, _, herr⟩ :=
    dfs_term hvc (g.vertices.additions.length + 2) start toKey [start] [] hm hmem
  rw [hout] at hres
  obtain ⟨v2, res2⟩ := out
  simp only [] at hres
  rw [Option.some.injEq] at hres
  exact herr e (by rw [hres])

/-! ### Claim theorems C5 and C6 -/

/-- C5: a successful FindPath returns a list that starts with the
from-vertex, ends with a vertex carrying the to-key, and follows existing
edges between consecutive entries; its length is at least 2, so a result
with from = to requires an actually traversed edge; between live endpoints
a failure is ErrPathNotFound; concretely, the edgeless one-vertex graph
yields ErrPathNotFound for (v1, v1), and the self-loop graph yields exactly
[v1, v1]. -/
theorem C5_findPath_endpoints (g : GraphS) (fromKey toKey : String)
    (hwf : GraphWF g) :
    (∀ p, g.FindPath fromKey toKey = some (.ok p) →
      chainOk g p ∧ (∃ s, g.Lookup fromKey = .ok s ∧ p.head? = some s) ∧
      (∃ t, p.getLast? = some t ∧ t.Key = toKey) ∧ 2 ≤ p.length) ∧
    (∀ e, g.FindPath fromKey toKey = some (.error e) →
      g.liveB fromKey = true → g.liveB toKey = true → e = .PathNotFound) ∧
    gSolo.FindPath "v1" "v1" = some (.error .PathNotFound) ∧
    gLoop.FindPath "v1" "v1" = some (.ok [⟨"v1", "x1"⟩, ⟨"v1", "x1"⟩]) := by
  refine ⟨?_, ?_, rfl, rfl⟩
  · intro p hp
    exact findPath_ok_sound hwf.2.1 hp
  · intro e he h1 h2
    exact findPath_error_kind hwf.2.1 he h1 h2

/-- Witness for C5: the self-loop graph, whose unique path from v1 to v1
is [v1, v1]. -/
theorem C5_findPath_endpoints_witness :
    chainOk gLoop [⟨"v1", "x1"⟩, ⟨"v1", "x1"⟩] ∧
    2 ≤ ([⟨"v1", "x1"⟩, ⟨"v1", "x1"⟩] : List Vertex).length :=
  ⟨((C5_findPath_endpoints gLoop "v1" "v1" (by decide)).1 _ rfl).1,
   ((C5_findPath_endpoints gLoop "v1" "v1" (by decide)).1 _ rfl).2.2.2⟩

/-- C6: on every well-formed graph both traversals terminate for every
input (the BFS and DFS loops complete within the fuel dominating their
measures); on the concrete cycle graph v1→v2→v1, v2→v3→v4→v1 the BFS from
v1 returns exactly {v1, v2, v3, v4} and FindPath succeeds for every ordered
pair with a path consistent with the graph's edges; on the self-loop graph
FindPath(v1, v1) terminates with [v1, v1]. -/
theorem C6_traversals_terminate (g : GraphS) (hwf : GraphWF g) :
    (∀ key, (g.FindConnected key).isSome = true) ∧
    (∀ fromKey toKey, (g.FindPath fromKey toKey).isSome = true) ∧
    (∃ l, gCycle.FindConnected "v1" = some (some l, none) ∧
      l.map Vertex.Key = ["v2", "v1", "v3", "v4"]) ∧
    (∀ a ∈ ["v1", "v2", "v3", "v4"], ∀ b ∈ ["v1", "v2", "v3", "v4"],
      pathConsistentB gCycle a b = true) ∧
    gLoop.FindPath "v1" "v1" = some (.ok [⟨"v1", "x1"⟩, ⟨"v1", "x1"⟩]) := by
  refine ⟨?_, ?_, ?_, ?_, rfl⟩
  · intro key
    exact findConnected_total hwf.2.1 key
  · intro fromKey toKey
    exact findPath_total hwf.2.1 fromKey toKey
  · exact ⟨[⟨"v2", "x2"⟩, ⟨"v1", "x1"⟩, ⟨"v3", "x3"⟩, ⟨"v4", "x4"⟩], rfl, rfl⟩
  · decide

/-- Witness for C6: the cycle graph terminates on the all-pairs search. -/
theorem C6_traversals_terminate_witness :
    (gCycle.FindPath "v1" "v1").isSome = true :=
  (C6_traversals_terminate gCycle (by decide)).2.1 "v1" "v1"

/-! ### Sortedness of insertionSort under a total transitive relation -/

theorem pairwise_orderedInsert (r : α → α → Prop) [DecidableRel r]
    (htot : ∀ a b, r a b ∨ r b a) (htr : ∀ {a b c}, r a b → r b c → r a c)
    (a : α) : ∀ l, l.Pairwise r → (List.orderedInsert r a l).Pairwise r := by
  intro l
  induction l with
  | nil =>
    intro _
    simp [List.orderedInsert]
  | cons b t ih =>
    intro hp
    obtain ⟨hb, ht⟩ := List.pairwise_cons.mp hp
    by_cases h : r a b
    · rw [show List.orderedInsert r a (b :: t) = a :: b :: t from by
        simp [List.orderedInsert, h]]
      rw [List.pairwise_cons]
      refine ⟨?_, hp⟩
      intro x hx
      rcases List.mem_cons.mp hx with h2 | h2
      · rw [h2]
        exact h
      · exact htr h (hb x h2)
    · rw [show List.orderedInsert r a (b :: t) = b :: List.orderedInsert r a t from by
        simp [List.orderedInsert, h]]
      rw [List.pairwise_cons]
      refine ⟨?_, ih ht⟩
      intro x hx
      rcases (List.mem_orderedInsert r).mp hx with h2 | h2
      · rw [h2]
        rcases htot a b with h3 | h3
        · exact absurd h3 h
        · exact h3
      · exact hb x h2

theorem pairwise_insertionSort (r : α → α → Prop) [DecidableRel r]
    (htot : ∀ a b, r a b ∨ r b a) (htr : ∀ {a b c}, r a b → r b c → r a c) :
    ∀ l : List α, (List.insertionSort r l).Pairwise r := by
  intro l
  induction l with
  | nil => simp [List.insertionSort]
  | cons a t ih =>
    rw [show List.insertionSort r (a :: t) =
      List.orderedInsert r a (List.insertionSort r t) from rfl]
    exact pairwise_orderedInsert r htot htr a _ ih

/-! ### Graph.List characterization (C7) -/

theorem setWF_newSet : SetWF NewSet :=
  ⟨List.nodup_nil, List.nodup_nil, fun p hp => absurd hp (List.not_mem_nil p)⟩

theorem setWF_getAdjacent {g : GraphS} (hwf : GraphWF g) (a : String) :
    SetWF (getAdjacent g a) := by
  unfold getAdjacent getAdjacentM
  cases hm : mapFind g.edges a with
  | some adj => exact (hwf.2.2.2 (a, adj) (mapFind_mem hm)).1
  | none => exact setWF_newSet

theorem edgeCoherent_getAdjacent {g : GraphS} (hwf : GraphWF g) (a : String) :
    edgeCoherent (getAdjacent g a) := by
  unfold getAdjacent getAdjacentM
  cases hm : mapFind g.edges a with
  | some adj => exact (hwf.2.2.2 (a, adj) (mapFind_mem hm)).2
  | none => exact fun p hp => absurd hp (List.not_mem_nil p)

theorem liveElems_keys_aux (s : SetS) :
    ∀ l : List (String × AddRecord),
      (∀ p ∈ l, (Prod.snd p).Element.GetKey = p.1) →
      (l.filterMap
        (fun p => if s.removed p.2 then none else some p.2.Element)).map
          Element.GetKey =
        (l.filter (fun p => !s.removed p.2)).map Prod.fst := by
  intro l
  induction l with
  | nil => intro _; rfl
  | cons p rest ih =>
    intro hco
    have hrest := ih (fun q hq => hco q (List.mem_cons_of_mem p hq))
    by_cases h : s.removed p.2
    · simp [List.filterMap_cons, List.filter_cons, h, hrest]
    · simp [List.filterMap_cons, List.filter_cons, h, hrest,
        hco p (List.mem_cons_self p rest)]

theorem liveElems_map_getKey_nodup {s : SetS} (hwf : SetWF s) :
    ((liveElems s).map Element.GetKey).Nodup := by
  obtain ⟨h1, _, h3⟩ := hwf
  unfold liveElems
  rw [liveElems_keys_aux s s.additions h3]
  exact List.Nodup.sublist
    (List.Sublist.map Prod.fst (List.filter_sublist s.additions)) h1

theorem lookup_of_liveElem {g : GraphS} (hwf : GraphWF g) {e : Element}
    (he : e ∈ liveElems g.vertices) :
    ∃ v, e = Element.vertexElem v ∧ g.Lookup e.GetKey = .ok v ∧
      v.Key = e.GetKey := by
  obtain ⟨k, r, h1, h2, h3⟩ := (mem_liveElems_find hwf.1.1).mp he
  have hvf := addFind_vertexFor hwf.2.1 h1
  cases hre : r.Element with
  | idElem id =>
    rw [hre] at hvf
    cases hvf
  | vertexElem v =>
    rw [hre] at hvf
    unfold isVertexFor at hvf
    simp only [decide_eq_true_eq] at hvf
    have he2 : e = .vertexElem v := by rw [← h3, hre]
    have hek : e.GetKey = k := by
      rw [he2]
      exact hvf
    refine ⟨v, he2, ?_, ?_⟩
    · apply lookup_ok_iff.mpr
      refine ⟨r, ?_, h2, hre⟩
      rw [hek]
      exact h1
    · rw [hek]
      exact hvf

theorem listLoop_spec {g : GraphS} :
    ∀ (l : List Element) (acc : List VertexWithEdges),
      (∀ e ∈ l, ∃ v, g.Lookup e.GetKey = .ok v) →
      listLoop g l (some acc) = (some (acc ++ l.map (rowOf g)), none) := by
  intro l
  induction l with
  | nil =>
    intro acc _
    simp [listLoop]
  | cons e rest ih =>
    intro acc hok
    obtain ⟨v, hv⟩ := hok e (List.mem_cons_self e rest)
    unfold listLoop
    rw [hv]
    simp only []
    rw [show goAppend (some acc)
      ⟨v, List.insertionSort strLe
        ((goRange (getAdjacent g v.Key).List).map Element.GetKey)⟩ =
      some (acc ++ [⟨v, List.insertionSort strLe
        ((goRange (getAdjacent g v.Key).List).map Element.GetKey)⟩]) from rfl]
    rw [ih _ (fun e2 he2 => hok e2 (List.mem_cons_of_mem e he2))]
    rw [List.map_cons,
      show rowOf g e = ⟨v, List.insertionSort strLe
        ((goRange (getAdjacent g v.Key).List).map Element.GetKey)⟩ from by
          unfold rowOf
          rw [hv]]
    rw [List.append_assoc]
    rfl

theorem graphList_eq {g : GraphS} (hwf : GraphWF g) :
    g.List = (some ((List.insertionSort elemLe (liveElems g.vertices)).map
      (rowOf g)), none) := by
  show listLoop g (List.insertionSort elemLe (goRange g.vertices.List)) (some []) = _
  rw [SetS.List_eq]
  rw [show goRange (some (liveElems g.vertices)) = liveElems g.vertices from rfl]
  rw [listLoop_spec _ [] ?hok]
  case hok =>
    intro e he
    have he2 : e ∈ liveElems g.vertices :=
      (List.perm_insertionSort elemLe (liveElems g.vertices)).mem_iff.mp he
    obtain ⟨v, _, hlk, _⟩ := lookup_of_liveElem hwf he2
    exact ⟨v, hlk⟩
  rw [List.nil_append]

theorem mem_liveElems_congr {s1 s2 : SetS} (h1 : NodupKeys s1.additions)
    (h2 : NodupKeys s2.additions)
    (ha : ∀ k, addFind s1 k = addFind s2 k)
    (hr : ∀ k, remFind s1 k = remFind s2 k) (e : Element) :
    e ∈ liveElems s1 ↔ e ∈ liveElems s2 := by
  rw [mem_liveElems_find h1, mem_liveElems_find h2]
  constructor
  · rintro ⟨k, r, hf, hrm, hel⟩
    refine ⟨k, r, ?_, ?_, hel⟩
    · rw [← ha k]
      exact hf
    · rw [← removed_congr r (hr r.Element.GetKey)]
      exact hrm
  · rintro ⟨k, r, hf, hrm, hel⟩
    refine ⟨k, r, ?_, ?_, hel⟩
    · rw [ha k]
      exact hf
    · rw [removed_congr r (hr r.Element.GetKey)]
      exact hrm

theorem sortedLive_eq {s1 s2 : SetS} (hwf1 : SetWF s1) (hwf2 : SetWF s2)
    (ha : ∀ k, addFind s1 k = addFind s2 k)
    (hr : ∀ k, remFind s1 k = remFind s2 k) :
    List.insertionSort elemLe (liveElems s1) =
      List.insertionSort elemLe (liveElems s2) := by
  apply sorted_nodup_ext Element.GetKey
  · exact pairwise_insertionSort elemLe
      (fun a b => strLe_total a.GetKey b.GetKey)
      (fun h1 h2 => strLe_trans h1 h2) _
  · exact pairwise_insertionSort elemLe
      (fun a b => strLe_total a.GetKey b.GetKey)
      (fun h1 h2 => strLe_trans h1 h2) _
  · rw [((List.perm_insertionSort elemLe (liveElems s1)).map
      Element.GetKey).nodup_iff]
    exact liveElems_map_getKey_nodup hwf1
  · rw [((List.perm_insertionSort elemLe (liveElems s2)).map
      Element.GetKey).nodup_iff]
    exact liveElems_map_getKey_nodup hwf2
  · intro x
    rw [(List.perm_insertionSort elemLe (liveElems s1)).mem_iff,
      (List.perm_insertionSort elemLe (liveElems s2)).mem_iff]
    exact mem_liveElems_congr hwf1.1 hwf2.1 ha hr x

theorem sortedAdjKeys_eq {s1 s2 : SetS} (hwf1 : SetWF s1) (hwf2 : SetWF s2)
    (ha : ∀ k, addFind s1 k = addFind s2 k)
    (hr : ∀ k, remFind s1 k = remFind s2 k) :
    List.insertionSort strLe ((liveElems s1).map Element.GetKey) =
      List.insertionSort strLe ((liveElems s2).map Element.GetKey) := by
  apply sorted_nodup_ext (fun x : String => x)
  · exact pairwise_insertionSort strLe strLe_total
      (fun h1 h2 => strLe_trans h1 h2) _
  · exact pairwise_insertionSort strLe strLe_total
      (fun h1 h2 => strLe_trans h1 h2) _
  · rw [show ((List.insertionSort strLe ((liveElems s1).map Element.GetKey)).map
      (fun x : String => x)) =
      List.insertionSort strLe ((liveElems s1).map Element.GetKey) from
        List.map_id' _]
    rw [(List.perm_insertionSort strLe ((liveElems s1).map
      Element.GetKey)).nodup_iff]
    exact liveElems_map_getKey_nodup hwf1
  · rw [show ((List.insertionSort strLe ((liveElems s2).map Element.GetKey)).map
      (fun x : String => x)) =
      List.insertionSort strLe ((liveElems s2).map Element.GetKey) from
        List.map_id' _]
    rw [(List.perm_insertionSort strLe ((liveElems s2).map
      Element.GetKey)).nodup_iff]
    exact liveElems_map_getKey_nodup hwf2
  · intro x
    rw [(List.perm_insertionSort strLe ((liveElems s1).map
      Element.GetKey)).mem_iff,
      (List.perm_insertionSort strLe ((liveElems s2).map
        Element.GetKey)).mem_iff]
    rw [List.mem_map, List.mem_map]
    constructor
    · rintro ⟨e, he, hx⟩
      exact ⟨e, (mem_liveElems_congr hwf1.1 hwf2.1 ha hr e).mp he, hx⟩
    · rintro ⟨e, he, hx⟩
      exact ⟨e, (mem_liveElems_congr hwf1.1 hwf2.1 ha hr e).mpr he, hx⟩

theorem rowOf_congr {g1 g2 : GraphS} (hwf1 : GraphWF g1) (hwf2 : GraphWF g2)
    (hv : ViewEq g1 g2) (e : Element) : rowOf g1 e = rowOf g2 e := by
  unfold rowOf
  rw [lookup_congr hv.1 hv.2.1 e.GetKey]
  cases hl : g2.Lookup e.GetKey with
  | error err => rfl
  | ok v =>
    simp only []
    rw [show (goRange (getAdjacent g1 v.Key).List) =
      liveElems (getAdjacent g1 v.Key) from by rw [SetS.List_eq]; rfl]
    rw [show (goRange (getAdjacent g2 v.Key).List) =
      liveElems (getAdjacent g2 v.Key) from by rw [SetS.List_eq]; rfl]
    rw [sortedAdjKeys_eq (setWF_getAdjacent hwf1 v.Key)
      (setWF_getAdjacent hwf2 v.Key) (fun k => hv.2.2.1 v.Key k)
      (fun k => hv.2.2.2 v.Key k)]

theorem graphList_congr {g1 g2 : GraphS} (hwf1 : GraphWF g1)
    (hwf2 : GraphWF g2) (hv : ViewEq g1 g2) : g1.List = g2.List := by
  rw [graphList_eq hwf1, graphList_eq hwf2]
  rw [sortedLive_eq hwf1.1 hwf2.1 hv.1 hv.2.1]
  rw [List.map_congr_left (fun e _ => rowOf_congr hwf1 hwf2 hv e)]

/-! ### Claim theorem C7 -/

/-- C7: on a well-formed graph, Graph.List returns without error a non-nil
row list holding exactly the currently live vertices in ascending key order
(keys pairwise ordered and without duplicates), each vertex paired with the
sorted keys of its adjacency set's full Set.List content — which is the
adjacency set's own live elements, not filtered by target-vertex liveness;
and the output is determined by the abstract registers alone: any two
well-formed graphs with equal views produce identical List output. -/
theorem C7_list_sorted_unfiltered_deterministic (g : GraphS) (hwf : GraphWF g) :
    (∃ rows, g.List = (some rows, none) ∧
      (rows.map (fun vwe => vwe.Vertex.Key)).Pairwise strLe ∧
      (rows.map (fun vwe => vwe.Vertex.Key)).Nodup ∧
      (∀ vwe ∈ rows, g.Lookup vwe.Vertex.Key = .ok vwe.Vertex ∧
        vwe.AdjacentKeys = List.insertionSort strLe
          ((goRange (getAdjacent g vwe.Vertex.Key).List).map Element.GetKey) ∧
        vwe.AdjacentKeys.Pairwise strLe) ∧
      (∀ k, g.liveB k = true ↔ ∃ vwe ∈ rows, vwe.Vertex.Key = k)) ∧
    (∀ g2, GraphWF g2 → ViewEq g g2 → g.List = g2.List) := by
  have hsorted := pairwise_insertionSort elemLe
    (fun a b => strLe_total a.GetKey b.GetKey)
    (fun h1 h2 => strLe_trans h1 h2) (liveElems g.vertices)
  have hperm := List.perm_insertionSort elemLe (liveElems g.vertices)
  have hkeyfact : ∀ e ∈ List.insertionSort elemLe (liveElems g.vertices),
      (rowOf g e).Vertex.Key = e.GetKey ∧
      g.Lookup e.GetKey = .ok (rowOf g e).Vertex ∧
      (rowOf g e).AdjacentKeys = List.insertionSort strLe
        ((goRange (getAdjacent g (rowOf g e).Vertex.Key).List).map
          Element.GetKey) := by
    intro e he
    obtain ⟨v, _, hlk, hkey⟩ := lookup_of_liveElem hwf (hperm.mem_iff.mp he)
    have hrow : rowOf g e = ⟨v, List.insertionSort strLe
        ((goRange (getAdjacent g v.Key).List).map Element.GetKey)⟩ := by
      unfold rowOf
      rw [hlk]
    rw [hrow]
    exact ⟨hkey, hlk, rfl⟩
  constructor
  · refine ⟨(List.insertionSort elemLe (liveElems g.vertices)).map (rowOf g),
      graphList_eq hwf, ?_, ?_, ?_, ?_⟩
    · rw [List.map_map]
      rw [show List.map ((fun vwe => vwe.Vertex.Key) ∘ rowOf g)
          (List.insertionSort elemLe (liveElems g.vertices)) =
          List.map Element.GetKey (List.insertionSort elemLe (liveElems g.vertices))
          from List.map_congr_left (fun e he => (hkeyfact e he).1)]
      rw [List.pairwise_map]
      exact hsorted
    · rw [List.map_map]
      rw [show List.map ((fun vwe => vwe.Vertex.Key) ∘ rowOf g)
          (List.insertionSort elemLe (liveElems g.vertices)) =
          List.map Element.GetKey (List.insertionSort elemLe (liveElems g.vertices))
          from List.map_congr_left (fun e he => (hkeyfact e he).1)]
      rw [(hperm.map Element.GetKey).nodup_iff]
      exact liveElems_map_getKey_nodup hwf.1
    · intro vwe hvwe
      obtain ⟨e, he, hrow⟩ := List.mem_map.mp hvwe
      obtain ⟨hk, hlk, hadj⟩ := hkeyfact e he
      subst hrow
      refine ⟨?_, hadj, ?_⟩
      · rw [hk]
        exact hlk
      · rw [hadj]
        exact pairwise_insertionSort strLe strLe_total
          (fun h1 h2 => strLe_trans h1 h2) _
    · intro k
      constructor
      · intro hlive
        obtain ⟨v, hv⟩ := lookup_ok_of_liveB hlive
        obtain ⟨r, hf, hrm, hel⟩ := lookup_ok_iff.mp hv
        have hee : r.Element ∈ liveElems g.vertices :=
          (mem_liveElems_find hwf.1.1).mpr ⟨k, r, hf, hrm, rfl⟩
        have hes : r.Element ∈ List.insertionSort elemLe (liveElems g.vertices) :=
          hperm.mem_iff.mpr hee
        refine ⟨rowOf g r.Element, List.mem_map_of_mem (rowOf g) hes, ?_⟩
        rw [(hkeyfact r.Element hes).1]
        exact addFind_coherent (keyCoherent_of_vertexCoherent hwf.2.1) hf
      · rintro ⟨vwe, hvwe, hkey⟩
        obtain ⟨e, he, hrow⟩ := List.mem_map.mp hvwe
        have hlk := (hkeyfact e he).2.1
        have hk := (hkeyfact e he).1
        rw [hrow] at hlk hk
        rw [← hkey, hk]
        exact liveB_of_lookup_ok hlk
  · intro g2 hwf2 hv
    exact graphList_congr hwf hwf2 hv

/-- Witness for C7: the tombstone scenario graph. -/
theorem C7_list_sorted_unfiltered_deterministic_witness :
    ∃ rows, gTomb.List = (some rows, none) ∧
      (rows.map (fun vwe => vwe.Vertex.Key)).Pairwise strLe ∧
      (rows.map (fun vwe => vwe.Vertex.Key)).Nodup ∧
      (∀ vwe ∈ rows, gTomb.Lookup vwe.Vertex.Key = .ok vwe.Vertex ∧
        vwe.AdjacentKeys = List.insertionSort strLe
          ((goRange (getAdjacent gTomb vwe.Vertex.Key).List).map
            Element.GetKey) ∧
        vwe.AdjacentKeys.Pairwise strLe) ∧
      (∀ k, gTomb.liveB k = true ↔ ∃ vwe ∈ rows, vwe.Vertex.Key = k) :=
  (C7_list_sorted_unfiltered_deterministic gTomb (by decide)).1

/-- Witness for C10: a set whose only element was removed later, the
one-vertex graph with no edges, and the graph whose only vertex was
removed. -/
theorem C10_empty_lists_not_nil_witness :
    ((NewSet.Add (.idElem "e") 1).Remove "e" 2).List = some [] ∧
    gSolo.FindConnected "v1" = some (some [], none) ∧
    ((gSolo.RemoveVertex "v1" 5).1).List = (some [], none) :=
  ⟨C10_empty_lists_not_nil.1 ((NewSet.Add (.idElem "e") 1).Remove "e" 2)
      (by decide),
   C10_empty_lists_not_nil.2.1 gSolo "v1" (by decide) (by rfl)
      (by intro e he; cases he),
   C10_empty_lists_not_nil.2.2 ((gSolo.RemoveVertex "v1" 5).1) (by decide)⟩

/-! ### Well-formedness through Graph.Merge -/

theorem nodupKeys_foldl_adjMergeStep (l acc : List (String × SetS))
    (h : NodupKeys acc) : NodupKeys (l.foldl adjMergeStep acc) := by
  induction l generalizing acc with
  | nil => exact h
  | cons p rest ih => exact ih _ (nodupKeys_mapSet acc _ _ h)

theorem adjValues_foldl_adjMergeStep
    {l acc : List (String × SetS)}
    (hacc : ∀ q ∈ acc, SetWF (Prod.snd q) ∧ edgeCoherent (Prod.snd q))
    (hl : ∀ q ∈ l, SetWF (Prod.snd q) ∧ edgeCoherent (Prod.snd q)) :
    ∀ q ∈ l.foldl adjMergeStep acc,
      SetWF (Prod.snd q) ∧ edgeCoherent (Prod.snd q) := by
  induction l generalizing acc with
  | nil => exact hacc
  | cons p rest ih =>
    simp only [List.foldl_cons]
    apply ih
    · intro q hq
      rcases mem_mapSet hq with h2 | h2
      · exact hacc q h2
      · rw [h2]
        have hlocal : SetWF (getAdjacentM acc p.1) ∧
            edgeCoherent (getAdjacentM acc p.1) := by
          unfold getAdjacentM
          cases hm : mapFind acc p.1 with
          | some adj => exact hacc (p.1, adj) (mapFind_mem hm)
          | none =>
            exact ⟨setWF_newSet, fun q2 hq2 => absurd hq2 (List.not_mem_nil q2)⟩
        have hremote := hl p (List.mem_cons_self p rest)
        exact ⟨setWF_replicate hlocal.1 hremote.1,
          edgeCoherent_replicate hlocal.2 hremote.2⟩
    · intro q hq
      exact hl q (List.mem_cons_of_mem p hq)

theorem graphWF_merge {g h : GraphS} (hg : GraphWF g) (hh : GraphWF h) :
    GraphWF (g.Merge h) := by
  obtain ⟨hg1, hg2, hg3, hg4⟩ := hg
  obtain ⟨hh1, hh2, hh3, hh4⟩ := hh
  refine ⟨setWF_replicate hg1 hh1, vertexCoherent_replicate hg2 hh2,
    nodupKeys_foldl_adjMergeStep h.edges g.edges hg3, ?_⟩
  exact adjValues_foldl_adjMergeStep hg4 hh4

/-! ### The register view of Graph.Merge -/

theorem foldl_adjMergeStep_find (l : List (String × SetS))
    (acc : List (String × SetS)) (a : String) (hl : NodupKeys l) :
    mapFind (l.foldl adjMergeStep acc) a =
      match mapFind l a with
      | some adj => some ((getAdjacentM acc a).Merge adj)
      | none => mapFind acc a := by
  induction l generalizing acc with
  | nil => simp [mapFind]
  | cons p rest ih =>
    simp only [NodupKeys, mapKeys, List.map_cons, List.nodup_cons] at hl
    simp only [List.foldl_cons]
    by_cases hp : p.1 = a
    · subst hp
      have hrest : mapFind rest p.1 = none :=
        (mapFind_eq_none_iff rest p.1).mpr hl.1
      rw [ih _ hl.2, hrest]
      have h1 : mapFind ((p.1, p.2) :: rest) p.1 = some p.2 := by
        simp [mapFind]
      rw [show ((p : String × SetS) = (p.1, p.2)) from rfl] at h1 ⊢
      rw [h1]
      simp only [adjMergeStep]
      rw [mapFind_mapSet_self]
    · rw [ih _ hl.2]
      have h2 : mapFind (p :: rest) a = mapFind rest a := by
        simp [mapFind, hp]
      rw [h2]
      have h3 : mapFind (adjMergeStep acc p) a = mapFind acc a :=
        mapFind_mapSet_ne acc _ (fun h4 => hp h4.symm)
      cases hr : mapFind rest a with
      | none =>
        simp only []
        exact h3
      | some adj =>
        simp only []
        have h5 : getAdjacentM (adjMergeStep acc p) a = getAdjacentM acc a := by
          unfold getAdjacentM
          rw [h3]
        rw [h5]

theorem getAdjacent_merge {g h : GraphS} (hh : NodupKeys h.edges) (a : String) :
    getAdjacent (g.Merge h) a =
      match mapFind h.edges a with
      | some adj => (getAdjacent g a).Merge adj
      | none => getAdjacent g a := by
  show getAdjacentM ((g.Merge h).edges) a = _
  rw [show (g.Merge h).edges = h.edges.foldl adjMergeStep g.edges from rfl]
  unfold getAdjacentM
  rw [foldl_adjMergeStep_find h.edges g.edges a hh]
  cases hm : mapFind h.edges a with
  | none => rfl
  | some adj => rfl

theorem addFind_newSet (k : String) : addFind NewSet k = none :=
  rfl

theorem remFind_newSet (k : String) : remFind NewSet k = none :=
  rfl

theorem lwwA_none_right (x : Option AddRecord) : lwwA x none = x := by
  cases x <;> rfl

theorem lwwR_none_right (x : Option Nat) : lwwR x none = x := by
  cases x <;> rfl

/-- The additions view of a merged graph's adjacency set at any key pair is
the LWW join of the two sides' adjacency views. -/
theorem adjAddFind_merge {g h : GraphS} (hh : GraphWF h) (a k : String) :
    addFind (getAdjacent (g.Merge h) a) k =
      lwwA (addFind (getAdjacent g a) k) (addFind (getAdjacent h a) k) := by
  rw [getAdjacent_merge hh.2.2.1 a]
  cases hm : mapFind h.edges a with
  | none =>
    simp only []
    rw [show getAdjacent h a = NewSet from by
      unfold getAdjacent getAdjacentM
      rw [hm]]
    rw [addFind_newSet, lwwA_none_right]
  | some adj =>
    simp only []
    rw [show getAdjacent h a = adj from by
      unfold getAdjacent getAdjacentM
      rw [hm]]
    exact replicate_addFind (getAdjacent g a) adj k
      ((hh.2.2.2 (a, adj) (mapFind_mem hm)).1.1)

/-- The removals view of a merged graph's adjacency set. -/
theorem adjRemFind_merge {g h : GraphS} (hh : GraphWF h) (a k : String) :
    remFind (getAdjacent (g.Merge h) a) k =
      lwwR (remFind (getAdjacent g a) k) (remFind (getAdjacent h a) k) := by
  rw [getAdjacent_merge hh.2.2.1 a]
  cases hm : mapFind h.edges a with
  | none =>
    simp only []
    rw [show getAdjacent h a = NewSet from by
      unfold getAdjacent getAdjacentM
      rw [hm]]
    rw [remFind_newSet, lwwR_none_right]
  | some adj =>
    simp only []
    rw [show getAdjacent h a = adj from by
      unfold getAdjacent getAdjacentM
      rw [hm]]
    exact replicate_remFind (getAdjacent g a) adj k
      ((hh.2.2.2 (a, adj) (mapFind_mem hm)).1.2.1)

theorem vertAddFind_merge {g h : GraphS} (hh : GraphWF h) (k : String) :
    addFind (g.Merge h).vertices k =
      lwwA (addFind g.vertices k) (addFind h.vertices k) :=
  replicate_addFind g.vertices h.vertices k hh.1.1

theorem vertRemFind_merge {g h : GraphS} (hh : GraphWF h) (k : String) :
    remFind (g.Merge h).vertices k =
      lwwR (remFind g.vertices k) (remFind h.vertices k) :=
  replicate_remFind g.vertices h.vertices k hh.1.2.1

/-! ### Timestamps as a join-semilattice (WithBot Nat) -/

theorem tsA_lwwA (x y : Option AddRecord) :
    tsA (lwwA x y) = tsA x ⊔ tsA y := by
  cases x with
  | none =>
    cases y with
    | none => simp [lwwA, tsA]
    | some b => simp [lwwA, tsA]
  | some a =>
    cases y with
    | none => simp [lwwA, tsA]
    | some b =>
      by_cases h : b.Timestamp > a.Timestamp
      · rw [show lwwA (some a) (some b) = some b from by simp [lwwA, h]]
        show tsA (some b) = tsA (some a) ⊔ tsA (some b)
        symm
        rw [sup_eq_right]
        show (a.Timestamp : WithBot Nat) ≤ (b.Timestamp : WithBot Nat)
        exact_mod_cast Nat.le_of_lt h
      · rw [show lwwA (some a) (some b) = some a from by simp [lwwA, h]]
        show tsA (some a) = tsA (some a) ⊔ tsA (some b)
        symm
        rw [sup_eq_left]
        show (b.Timestamp : WithBot Nat) ≤ (a.Timestamp : WithBot Nat)
        exact_mod_cast Nat.not_lt.mp h

theorem tsR_lwwR (x y : Option Nat) :
    tsR (lwwR x y) = tsR x ⊔ tsR y := by
  cases x with
  | none =>
    cases y with
    | none => simp [lwwR, tsR]
    | some b => simp [lwwR, tsR]
  | some a =>
    cases y with
    | none => simp [lwwR, tsR]
    | some b =>
      by_cases h : b > a
      · rw [show lwwR (some a) (some b) = some b from by simp [lwwR, h]]
        show tsR (some b) = tsR (some a) ⊔ tsR (some b)
        symm
        rw [sup_eq_right]
        show (a : WithBot Nat) ≤ (b : WithBot Nat)
        exact_mod_cast Nat.le_of_lt h
      · rw [show lwwR (some a) (some b) = some a from by simp [lwwR, h]]
        show tsR (some a) = tsR (some a) ⊔ tsR (some b)
        symm
        rw [sup_eq_left]
        show (b : WithBot Nat) ≤ (a : WithBot Nat)
        exact_mod_cast Nat.not_lt.mp h

theorem tsR_inj {x y : Option Nat} (h : tsR x = tsR y) : x = y := by
  cases x with
  | none =>
    cases y with
    | none => rfl
    | some b => simp [tsR] at h
  | some a =>
    cases y with
    | none => simp [tsR] at h
    | some b =>
      show some a = some b
      rw [show a = b from WithBot.coe_inj.mp h]

/-! ### Merge expressions converge to the join of their leaves -/

theorem evalG_wf {f : Nat → GraphS} (hwf : ∀ i, GraphWF (f i)) :
    ∀ t : MTree, GraphWF (t.evalG f) := by
  intro t
  induction t with
  | leaf i => exact hwf i
  | node l r ihl ihr => exact graphWF_merge ihl ihr

theorem evalG_vert_ts {f : Nat → GraphS} (hwf : ∀ i, GraphWF (f i)) :
    ∀ (t : MTree) (k : String),
      tsA (addFind (t.evalG f).vertices k) =
        (t.leaves).sup (fun i => tsA (addFind (f i).vertices k)) := by
  intro t k
  induction t with
  | leaf i =>
    show tsA (addFind (f i).vertices k) = Finset.sup {i} _
    rw [Finset.sup_singleton]
  | node l r ihl ihr =>
    show tsA (addFind ((l.evalG f).Merge (r.evalG f)).vertices k) =
      Finset.sup (l.leaves ∪ r.leaves) _
    rw [vertAddFind_merge (evalG_wf hwf r) k, tsA_lwwA, ihl, ihr,
      Finset.sup_union]

theorem evalG_vert_rem_ts {f : Nat → GraphS} (hwf : ∀ i, GraphWF (f i)) :
    ∀ (t : MTree) (k : String),
      tsR (remFind (t.evalG f).vertices k) =
        (t.leaves).sup (fun i => tsR (remFind (f i).vertices k)) := by
  intro t k
  induction t with
  | leaf i =>
    show tsR (remFind (f i).vertices k) = Finset.sup {i} _
    rw [Finset.sup_singleton]
  | node l r ihl ihr =>
    show tsR (remFind ((l.evalG f).Merge (r.evalG f)).vertices k) =
      Finset.sup (l.leaves ∪ r.leaves) _
    rw [vertRemFind_merge (evalG_wf hwf r) k, tsR_lwwR, ihl, ihr,
      Finset.sup_union]

theorem evalG_adj_ts {f : Nat → GraphS} (hwf : ∀ i, GraphWF (f i)) :
    ∀ (t : MTree) (a k : String),
      tsA (addFind (getAdjacent (t.evalG f) a) k) =
        (t.leaves).sup (fun i => tsA (addFind (getAdjacent (f i) a) k)) := by
  intro t a k
  induction t with
  | leaf i =>
    show tsA (addFind (getAdjacent (f i) a) k) = Finset.sup {i} _
    rw [Finset.sup_singleton]
  | node l r ihl ihr =>
    show tsA (addFind (getAdjacent ((l.evalG f).Merge (r.evalG f)) a) k) =
      Finset.sup (l.leaves ∪ r.leaves) _
    rw [adjAddFind_merge (evalG_wf hwf r) a k, tsA_lwwA, ihl, ihr,
      Finset.sup_union]

theorem evalG_adj_rem_ts {f : Nat → GraphS} (hwf : ∀ i, GraphWF (f i)) :
    ∀ (t : MTree) (a k : String),
      tsR (remFind (getAdjacent (t.evalG f) a) k) =
        (t.leaves).sup (fun i => tsR (remFind (getAdjacent (f i) a) k)) := by
  intro t a k
  induction t with
  | leaf i =>
    show tsR (remFind (getAdjacent (f i) a) k) = Finset.sup {i} _
    rw [Finset.sup_singleton]
  | node l r ihl ihr =>
    show tsR (remFind (getAdjacent ((l.evalG f).Merge (r.evalG f)) a) k) =
      Finset.sup (l.leaves ∪ r.leaves) _
    rw [adjRemFind_merge (evalG_wf hwf r) a k, tsR_lwwR, ihl, ihr,
      Finset.sup_union]

theorem evalG_vert_prov {f : Nat → GraphS} (hwf : ∀ i, GraphWF (f i)) :
    ∀ (t : MTree) (k : String) (r : AddRecord),
      addFind (t.evalG f).vertices k = some r →
      ∃ i ∈ t.leaves, addFind (f i).vertices k = some r := by
  intro t k rec
  induction t with
  | leaf i =>
    intro h
    exact ⟨i, Finset.mem_singleton_self i, h⟩
  | node l r ihl ihr =>
    intro h
    rw [show (MTree.node l r).evalG f = (l.evalG f).Merge (r.evalG f) from rfl]
      at h
    rw [vertAddFind_merge (evalG_wf hwf r) k] at h
    rcases lwwA_cases (addFind (l.evalG f).vertices k)
        (addFind (r.evalG f).vertices k) with h2 | h2
    · rw [h2] at h
      obtain ⟨i, hi, h3⟩ := ihl h
      exact ⟨i, Finset.mem_union_left _ hi, h3⟩
    · rw [h2] at h
      obtain ⟨i, hi, h3⟩ := ihr h
      exact ⟨i, Finset.mem_union_right _ hi, h3⟩

/-- Two merge expressions incorporating the same set of well-formed,
tie-compatible replica states have equal abstract registers. -/
theorem evalG_viewEq {f : Nat → GraphS} (hwf : ∀ i, GraphWF (f i))
    (hcompat : ∀ i j, VCompat (f i) (f j)) {t1 t2 : MTree}
    (hleaves : t1.leaves = t2.leaves) :
    ViewEq (t1.evalG f) (t2.evalG f) := by
  refine ⟨?_, ?_, ?_, ?_⟩
  · intro k
    have hts : tsA (addFind (t1.evalG f).vertices k) =
        tsA (addFind (t2.evalG f).vertices k) := by
      rw [evalG_vert_ts hwf t1 k, evalG_vert_ts hwf t2 k, hleaves]
    cases h1 : addFind (t1.evalG f).vertices k with
    | none =>
      cases h2 : addFind (t2.evalG f).vertices k with
      | none => rfl
      | some r2 =>
        rw [h1, h2] at hts
        simp [tsA] at hts
    | some r1 =>
      cases h2 : addFind (t2.evalG f).vertices k with
      | none =>
        rw [h1, h2] at hts
        simp [tsA] at hts
      | some r2 =>
        rw [h1, h2] at hts
        have htseq : r1.Timestamp = r2.Timestamp := WithBot.coe_inj.mp hts
        obtain ⟨i, _, hfi⟩ := evalG_vert_prov hwf t1 k r1 h1
        obtain ⟨j, _, hfj⟩ := evalG_vert_prov hwf t2 k r2 h2
        have hr := hcompat i j (k, r1) (mapFind_mem hfi) (k, r2)
          (mapFind_mem hfj) rfl htseq
        rw [show r1 = r2 from hr]
  · intro k
    apply tsR_inj
    rw [evalG_vert_rem_ts hwf t1 k, evalG_vert_rem_ts hwf t2 k, hleaves]
  · intro a k
    have hts : tsA (addFind (getAdjacent (t1.evalG f) a) k) =
        tsA (addFind (getAdjacent (t2.evalG f) a) k) := by
      rw [evalG_adj_ts hwf t1 a k, evalG_adj_ts hwf t2 a k, hleaves]
    cases h1 : addFind (getAdjacent (t1.evalG f) a) k with
    | none =>
      cases h2 : addFind (getAdjacent (t2.evalG f) a) k with
      | none => rfl
      | some r2 =>
        rw [h1, h2] at hts
        simp [tsA] at hts
    | some r1 =>
      cases h2 : addFind (getAdjacent (t2.evalG f) a) k with
      | none =>
        rw [h1, h2] at hts
        simp [tsA] at hts
      | some r2 =>
        rw [h1, h2] at hts
        have htseq : r1.Timestamp = r2.Timestamp := WithBot.coe_inj.mp hts
        have he1 : r1.Element = Element.idElem k :=
          addFind_edgeFor (edgeCoherent_getAdjacent (evalG_wf hwf t1) a) h1
        have he2 : r2.Element = Element.idElem k :=
          addFind_edgeFor (edgeCoherent_getAdjacent (evalG_wf hwf t2) a) h2
        have hr : r1 = r2 := by
          cases r1 with
          | mk e1 ts1 =>
            cases r2 with
            | mk e2 ts2 =>
              simp only [] at he1 he2 htseq
              rw [he1, he2, htseq]
        rw [hr]
  · intro a k
    apply tsR_inj
    rw [evalG_adj_rem_ts hwf t1 a k, evalG_adj_rem_ts hwf t2 a k, hleaves]

/-! ### Claim theorems C2 -/

/-- C2 counterexample: two replicas each add a vertex with the same key and
the same wall-clock timestamp but different payloads; merging A into B and
merging B into A keep different records (ties keep local state), so the two
observable list() outputs differ and never reconcile. -/
theorem C2_equal_timestamp_counterexample :
    (cexA.Merge cexB).List ≠ (cexB.Merge cexA).List := by
  decide

/-- C2 as amended: provided no two replicas hold add records for the same
key with equal timestamps but different contents (tie compatibility), any
two merge expressions — pairwise merges in any order, any number of times,
redundant re-merges included — over the same set of well-formed replica
states produce identical Graph.List output; in particular merging A into B
and merging B into A yield the same observable state. -/
theorem C2_convergence_amended (f : Nat → GraphS) (t1 t2 : MTree)
    (hwf : ∀ i, GraphWF (f i)) (hcompat : ∀ i j, VCompat (f i) (f j))
    (hleaves : t1.leaves = t2.leaves) :
    (t1.evalG f).List = (t2.evalG f).List :=
  graphList_congr (evalG_wf hwf t1) (evalG_wf hwf t2)
    (evalG_viewEq hwf hcompat hleaves)

/-- Witness for the amended C2: a redundant self-merge of a replica leaves
its observable state unchanged. -/
theorem C2_convergence_amended_witness :
    ((MTree.node (.leaf 0) (.leaf 0)).evalG (fun _ => cexA)).List =
      ((MTree.leaf 0).evalG (fun _ => cexA)).List := by
  apply C2_convergence_amended (fun _ => cexA) (.node (.leaf 0) (.leaf 0))
    (.leaf 0)
  · intro i
    show GraphWF cexA
    decide
  · intro i j
    show VCompat cexA cexA
    decide
  · decide

end Crdt
